import Mathlib

/-!
# Verification of the OmniInt arbitrary-precision integer library

Shallow embedding of `src/OmniInt.h`: an `OmniInt` stores base-10 digits
least-significant first (`val`, the C++ `std::vector<int> val`) and a sign
bit (`pos`, `true` for non-negative).  Machine integers in the conversion
layer are modelled as `Nat`/`Int` with explicit `% 2^64` where the C++
`long long` accumulation can wrap.

The C++ `operator+=`/`operator-=` pair is mutually recursive (each delegates
to the other on a sign mismatch); the embedding gives the pair an explicit
fuel argument and returns `none` when the fuel runs out, so genuine
non-termination of the source is expressible as `∀ fuel, … = none`.
-/

namespace OmniSpec

/-- The C++ class `OmniInt`: digit vector (LSB first) plus sign flag. -/
structure OmniInt where
  val : List Nat
  pos : Bool
deriving Repr, DecidableEq

/-- Value of a little-endian digit list: `lv [d0, d1, …] = d0 + 10*d1 + …`. -/
def lv : List Nat → Nat
  | [] => 0
  | d :: l => d + 10 * lv l

/-- Signed integer value of an `OmniInt`. -/
def value (x : OmniInt) : Int :=
  if x.pos then (lv x.val : Int) else -(lv x.val : Int)

/-- The representation invariant of the C++ class (spec §3): magnitude never
empty, digits in `[0,9]`, no most-significant zero digit except the canonical
zero `[0]`, and a zero value always carries `pos = true`. -/
def WF (x : OmniInt) : Prop :=
  x.val ≠ [] ∧ (∀ d ∈ x.val, d < 10) ∧
  (x.val.getLast? = some 0 → x.val = [0]) ∧
  (x.val = [0] → x.pos = true)

instance (x : OmniInt) : Decidable (WF x) := by
  unfold WF; infer_instance

/-- The canonical zero `OmniInt` (C++ default constructor). -/
def zeroO : OmniInt := ⟨[0], true⟩

/-- `OmniInt::trim`: pop most-significant zero digits while more than one
digit remains. -/
def trimList (l : List Nat) : List Nat :=
  match l.reverse.dropWhile (fun d => d = 0) with
  | [] => if l = [] then [] else [0]
  | d :: r => (d :: r).reverse

/-- `OmniInt::operator-()` (unary): zero is returned unchanged, otherwise the
sign flips. -/
def negO (x : OmniInt) : OmniInt :=
  if x.val = [0] then x else ⟨x.val, !x.pos⟩

/-- `OmniInt::abs()`: same magnitude, positive sign. -/
def absO (x : OmniInt) : OmniInt := ⟨x.val, true⟩

/-- Digit-by-digit comparison from the most significant digit (the loop at
the end of `OmniInt::compare`, on reversed = MSB-first digit lists). -/
def cmpDigitsMSB : List Nat → List Nat → Int
  | a :: as, b :: bs =>
      if a < b then -1 else if b < a then 1 else cmpDigitsMSB as bs
  | _, _ => 0

/-- `OmniInt::compare`: sign discrimination, defensive both-zero check,
length comparison, then MSB-first digit comparison, all scaled by the sign
multiplier. -/
def compareO (a b : OmniInt) : Int :=
  if a.pos ≠ b.pos then (if a.pos then 1 else -1)
  else if a.val = [0] ∧ b.val = [0] then 0
  else
    let sm : Int := if a.pos then 1 else -1
    if a.val.length < b.val.length then -1 * sm
    else if b.val.length < a.val.length then 1 * sm
    else sm * cmpDigitsMSB a.val.reverse b.val.reverse

/-- `OmniInt::operator<`. -/
def ltO (a b : OmniInt) : Prop := compareO a b = -1
/-- `OmniInt::operator>`. -/
def gtO (a b : OmniInt) : Prop := compareO a b = 1
/-- `OmniInt::operator>=`. -/
def geO (a b : OmniInt) : Prop := 0 ≤ compareO a b
/-- `OmniInt::operator==`. -/
def eqO (a b : OmniInt) : Prop := compareO a b = 0

instance (a b : OmniInt) : Decidable (ltO a b) := by unfold ltO; infer_instance
instance (a b : OmniInt) : Decidable (gtO a b) := by unfold gtO; infer_instance
instance (a b : OmniInt) : Decidable (geO a b) := by unfold geO; infer_instance
instance (a b : OmniInt) : Decidable (eqO a b) := by unfold eqO; infer_instance

/-! ## Basic lemmas about `lv`, `trimList` and well-formedness -/

theorem lv_nil : lv [] = 0 := rfl

theorem lv_cons (d : Nat) (l : List Nat) : lv (d :: l) = d + 10 * lv l := rfl

theorem lv_append (xs ys : List Nat) :
    lv (xs ++ ys) = lv xs + 10 ^ xs.length * lv ys := by
  induction xs with
  | nil => simp [lv]
  | cons d xs ih => simp [lv_cons, ih, pow_succ]; ring

theorem lv_lt_pow (l : List Nat) (h : ∀ d ∈ l, d < 10) :
    lv l < 10 ^ l.length := by
  induction l with
  | nil => simp [lv]
  | cons d l ih =>
    have hd : d < 10 := h d (List.mem_cons_self ..)
    have hl : lv l < 10 ^ l.length := ih (fun x hx => h x (List.mem_cons_of_mem _ hx))
    simp only [lv_cons, List.length_cons, pow_succ]
    omega

/-- A digit list whose last (most significant) digit is nonzero has a large
value. -/
theorem pow_le_lv (l : List Nat) (hne : l ≠ []) (hlast : l.getLast? ≠ some 0) :
    10 ^ (l.length - 1) ≤ lv l := by
  induction l with
  | nil => exact absurd rfl hne
  | cons d l ih =>
    cases l with
    | nil =>
      simp only [List.getLast?_singleton, ne_eq, Option.some.injEq] at hlast
      simp only [lv_cons, lv_nil, List.length_cons, List.length_nil]
      omega
    | cons e t =>
      have h1 : (d :: e :: t).getLast? = (e :: t).getLast? :=
        List.getLast?_cons_cons ..
      rw [h1] at hlast
      have h2 := ih (by simp) hlast
      simp only [lv_cons, List.length_cons, Nat.add_sub_cancel] at h2 ⊢
      have h3 : 10 ^ (t.length + 1) = 10 * 10 ^ t.length := pow_succ' 10 t.length
      omega

/-- A digit list ending in the digit zero has a small value. -/
theorem lv_lt_of_getLast_zero (l : List Nat) (h : ∀ d ∈ l, d < 10)
    (hlast : l.getLast? = some 0) : lv l < 10 ^ (l.length - 1) := by
  induction l with
  | nil => simp at hlast
  | cons d l ih =>
    cases l with
    | nil =>
      simp only [List.getLast?_singleton, Option.some.injEq] at hlast
      subst hlast; simp [lv]
    | cons e t =>
      have h1 : (d :: e :: t).getLast? = (e :: t).getLast? :=
        List.getLast?_cons_cons ..
      rw [h1] at hlast
      have h2 := ih (fun x hx => h x (List.mem_cons_of_mem _ hx)) hlast
      have hd : d < 10 := h d (List.mem_cons_self ..)
      simp only [lv_cons, List.length_cons, Nat.add_sub_cancel] at h2 ⊢
      have h3 : 10 ^ (t.length + 1) = 10 * 10 ^ t.length := pow_succ' 10 t.length
      omega

/-- Contrapositive workhorse: a digit list with a large value cannot end in
a zero digit. -/
theorem getLast_ne_zero_of_le_lv (l : List Nat) (h : ∀ d ∈ l, d < 10)
    (hge : 10 ^ (l.length - 1) ≤ lv l) : l.getLast? ≠ some 0 := by
  intro hlast
  exact absurd hge (Nat.not_le.mpr (lv_lt_of_getLast_zero l h hlast))

/-! ## `trimList` lemmas -/

/-- The head of what `dropWhile` keeps fails the predicate. -/
theorem dropWhile_head_false {α : Type} (p : α → Bool) (l : List α) (e : α)
    (r : List α) (h : l.dropWhile p = e :: r) : p e = false := by
  induction l with
  | nil => simp at h
  | cons a t ih =>
    rw [List.dropWhile_cons] at h
    by_cases hp : p a = true
    · rw [if_pos hp] at h; exact ih h
    · rw [if_neg hp] at h
      injection h with h1 h2
      subst h1
      simpa using hp

/-- Dropping most-significant zero digits preserves the value. -/
theorem lv_dropWhile_reverse (l : List Nat) :
    lv ((l.reverse.dropWhile (fun d => d = 0)).reverse) = lv l := by
  induction l using List.reverseRecOn with
  | nil => simp
  | append_singleton xs d ih =>
    rw [List.reverse_append]
    simp only [List.reverse_singleton, List.singleton_append, List.dropWhile_cons]
    by_cases hd : d = 0
    · subst hd
      rw [if_pos (by simp), ih, lv_append]
      simp [lv]
    · rw [if_neg (by simpa using hd), List.reverse_cons, List.reverse_reverse]

theorem lv_trimList (l : List Nat) : lv (trimList l) = lv l := by
  have key := lv_dropWhile_reverse l
  unfold trimList
  split
  · rename_i heq
    rw [heq] at key
    simp only [List.reverse_nil, lv_nil] at key
    by_cases hl : l = []
    · rw [if_pos hl, hl]
    · rw [if_neg hl]
      simp [lv, ← key]
  · rename_i e r heq
    rw [heq] at key
    exact key

theorem trimList_ne_nil (l : List Nat) (h : l ≠ []) : trimList l ≠ [] := by
  unfold trimList
  split
  · simp [h]
  · simp

theorem trimList_mem (l : List Nat) (d : Nat) (hd : d ∈ trimList l) :
    d ∈ l ∨ d = 0 := by
  unfold trimList at hd
  split at hd
  · by_cases hl : l = []
    · rw [if_pos hl] at hd; simp at hd
    · rw [if_neg hl] at hd
      simp only [List.mem_singleton] at hd
      right; exact hd
  · rename_i e r heq
    left
    have h1 : d ∈ e :: r := by
      rw [← List.mem_reverse]; exact hd
    have h2 : e :: r <:+ l.reverse := heq ▸ List.dropWhile_suffix _
    have h3 : d ∈ l.reverse := h2.subset h1
    rwa [List.mem_reverse] at h3

theorem trimList_digits (l : List Nat) (h : ∀ d ∈ l, d < 10) :
    ∀ d ∈ trimList l, d < 10 := by
  intro d hd
  rcases trimList_mem l d hd with h1 | h1
  · exact h d h1
  · omega

/-- The result of `trim` is normalized: either it is `[0]`, or its most
significant digit is nonzero. -/
theorem trimList_norm (l : List Nat) :
    trimList l = [0] ∨ (trimList l).getLast? ≠ some 0 := by
  unfold trimList
  split
  · by_cases hl : l = [] <;> simp [hl]
  · rename_i e r heq
    right
    have he : (fun d => decide (d = 0)) e = false :=
      dropWhile_head_false (fun d => decide (d = 0)) l.reverse e r heq
    simp only [decide_eq_false_iff_not] at he
    rw [List.getLast?_reverse]
    simp only [List.head?_cons, ne_eq, Option.some.injEq]
    exact fun hc => he hc

theorem trimList_getLast (l : List Nat) (h : (trimList l).getLast? = some 0) :
    trimList l = [0] :=
  (trimList_norm l).elim id (fun hn => absurd h hn)

/-- Base-10 representations of fixed length are unique. -/
theorem lv_inj (x y : List Nat) (hlen : x.length = y.length)
    (hx : ∀ d ∈ x, d < 10) (hy : ∀ d ∈ y, d < 10) (hv : lv x = lv y) :
    x = y := by
  induction x generalizing y with
  | nil => cases y with
    | nil => rfl
    | cons e ys => simp at hlen
  | cons d xs ih =>
    cases y with
    | nil => simp at hlen
    | cons e ys =>
      have hd : d < 10 := hx d (List.mem_cons_self ..)
      have he : e < 10 := hy e (List.mem_cons_self ..)
      simp only [lv_cons] at hv
      have hde : d = e := by omega
      subst hde
      have hxy : lv xs = lv ys := by omega
      simp only [List.length_cons, Nat.add_right_cancel_iff] at hlen
      rw [ih ys hlen (fun z hz => hx z (List.mem_cons_of_mem _ hz))
        (fun z hz => hy z (List.mem_cons_of_mem _ hz)) hxy]

/-- A digit list of value zero is all zero digits. -/
theorem lv_eq_zero_all (l : List Nat) (h : lv l = 0) : ∀ z ∈ l, z = 0 := by
  induction l with
  | nil => intro z hz; simp at hz
  | cons a t ih =>
    intro z hz
    simp only [lv_cons] at h
    rcases List.mem_cons.mp hz with rfl | hz
    · omega
    · exact ih (by omega) z hz

/-- For a well-formed `OmniInt`, zero value and the `[0]` digit vector
coincide. -/
theorem WF.lv_eq_zero_iff {x : OmniInt} (h : WF x) :
    lv x.val = 0 ↔ x.val = [0] := by
  constructor
  · intro h0
    rcases h with ⟨hne, _, hnorm, _⟩
    have hlast : x.val.getLast? = some 0 := by
      rw [List.getLast?_eq_getLast_of_ne_nil hne]
      exact congrArg some (lv_eq_zero_all _ h0 _ (List.getLast_mem hne))
    exact hnorm hlast
  · intro h0
    rw [h0]; simp [lv]

theorem value_eq_zero_iff {x : OmniInt} (h : WF x) :
    value x = 0 ↔ x.val = [0] := by
  unfold value
  rw [← h.lv_eq_zero_iff]
  cases x.pos <;> simp

/-- Zero is well-formed. -/
theorem WF_zeroO : WF zeroO := by decide

theorem value_zeroO : value zeroO = 0 := rfl

theorem value_negO (x : OmniInt) : value (negO x) = -value x := by
  unfold negO value
  by_cases h0 : x.val = [0]
  · simp [h0, lv]
  · cases hp : x.pos <;> simp [h0, hp]

theorem WF_negO (x : OmniInt) (h : WF x) : WF (negO x) := by
  unfold negO
  by_cases h0 : x.val = [0]
  · rw [if_pos h0]; exact h
  · rw [if_neg h0]
    rcases h with ⟨hne, hdig, hnorm, _⟩
    exact ⟨hne, hdig, hnorm, fun hc => absurd hc h0⟩

theorem WF_absO (x : OmniInt) (h : WF x) : WF (absO x) := by
  rcases h with ⟨hne, hdig, hnorm, _⟩
  exact ⟨hne, hdig, hnorm, fun _ => rfl⟩

theorem value_absO (x : OmniInt) : value (absO x) = (lv x.val : Int) := by
  simp [absO, value]

/-! ## Comparator correctness -/

/-- Value of an MSB-first digit list. -/
def msbVal (l : List Nat) : Nat := l.foldl (fun a d => 10 * a + d) 0

theorem foldl_msb (l : List Nat) (a : Nat) :
    l.foldl (fun a d => 10 * a + d) a = a * 10 ^ l.length + msbVal l := by
  induction l generalizing a with
  | nil => simp [msbVal]
  | cons d t ih =>
    simp only [List.foldl_cons, List.length_cons, msbVal, Nat.mul_zero,
      Nat.zero_add]
    rw [ih (10 * a + d), ih d]
    ring

theorem msbVal_cons (d : Nat) (t : List Nat) :
    msbVal (d :: t) = d * 10 ^ t.length + msbVal t := by
  simp only [msbVal, List.foldl_cons, Nat.mul_zero, Nat.zero_add]
  rw [foldl_msb]
  rfl

theorem msbVal_lt_pow (l : List Nat) (h : ∀ d ∈ l, d < 10) :
    msbVal l < 10 ^ l.length := by
  induction l with
  | nil => simp [msbVal]
  | cons d t ih =>
    have hd : d < 10 := h d (List.mem_cons_self ..)
    have ht := ih (fun x hx => h x (List.mem_cons_of_mem _ hx))
    rw [msbVal_cons]
    simp only [List.length_cons, pow_succ']
    have : d * 10 ^ t.length + msbVal t < (d + 1) * 10 ^ t.length := by
      have := Nat.pos_pow_of_pos t.length (show 0 < 10 by omega)
      nlinarith
    calc d * 10 ^ t.length + msbVal t < (d + 1) * 10 ^ t.length := this
      _ ≤ 10 * 10 ^ t.length := by
          have := Nat.pos_pow_of_pos t.length (show 0 < 10 by omega)
          nlinarith

theorem lv_reverse (l : List Nat) : lv l.reverse = msbVal l := by
  induction l with
  | nil => simp [lv, msbVal]
  | cons d t ih =>
    rw [List.reverse_cons, lv_append, ih, msbVal_cons, List.length_reverse]
    simp [lv]
    ring

theorem cmpDigitsMSB_cons (a b : Nat) (as bs : List Nat) :
    cmpDigitsMSB (a :: as) (b :: bs) =
      if a < b then -1 else if b < a then 1 else cmpDigitsMSB as bs := rfl

/-- Trichotomy for the MSB-first digit comparison on equal-length digit
lists. -/
theorem cmpDigitsMSB_spec (x y : List Nat) (hlen : x.length = y.length)
    (hx : ∀ d ∈ x, d < 10) (hy : ∀ d ∈ y, d < 10) :
    (cmpDigitsMSB x y = -1 ∧ msbVal x < msbVal y) ∨
    (cmpDigitsMSB x y = 0 ∧ msbVal x = msbVal y) ∨
    (cmpDigitsMSB x y = 1 ∧ msbVal y < msbVal x) := by
  induction x generalizing y with
  | nil =>
    cases y with
    | nil => right; left; exact ⟨rfl, rfl⟩
    | cons e ys => simp at hlen
  | cons d xs ih =>
    cases y with
    | nil => simp at hlen
    | cons e ys =>
      simp only [List.length_cons, Nat.add_right_cancel_iff] at hlen
      have hxd : ∀ z ∈ xs, z < 10 := fun z hz => hx z (List.mem_cons_of_mem _ hz)
      have hyd : ∀ z ∈ ys, z < 10 := fun z hz => hy z (List.mem_cons_of_mem _ hz)
      have hxlt := msbVal_lt_pow xs hxd
      have hylt := msbVal_lt_pow ys hyd
      rw [msbVal_cons, msbVal_cons, hlen]
      rcases Nat.lt_trichotomy d e with hde | hde | hde
      · left
        refine ⟨?_, ?_⟩
        · rw [cmpDigitsMSB_cons, if_pos hde]
        · have : (d + 1) * 10 ^ ys.length ≤ e * 10 ^ ys.length :=
            Nat.mul_le_mul_right _ (by omega)
          rw [hlen] at hxlt
          nlinarith
      · subst hde
        have step : cmpDigitsMSB (d :: xs) (d :: ys) = cmpDigitsMSB xs ys := by
          rw [cmpDigitsMSB_cons, if_neg (by omega), if_neg (by omega)]
        rw [step]
        rcases ih ys hlen hxd hyd with ⟨h1, h2⟩ | ⟨h1, h2⟩ | ⟨h1, h2⟩
        · left; exact ⟨h1, by omega⟩
        · right; left; exact ⟨h1, by omega⟩
        · right; right; exact ⟨h1, by omega⟩
      · right; right
        refine ⟨?_, ?_⟩
        · rw [cmpDigitsMSB_cons, if_neg (by omega), if_pos hde]
        · have : (e + 1) * 10 ^ ys.length ≤ d * 10 ^ ys.length :=
            Nat.mul_le_mul_right _ (by omega)
          nlinarith

/-- A shorter normalized digit list has a strictly smaller value. -/
theorem lv_lt_of_length_lt {a b : OmniInt} (ha : WF a) (hb : WF b)
    (hlen : a.val.length < b.val.length) : lv a.val < lv b.val := by
  rcases ha with ⟨hane, hadig, _, _⟩
  rcases hb with ⟨hbne, _, hbnorm, _⟩
  have h1 : lv a.val < 10 ^ a.val.length := lv_lt_pow _ hadig
  have hlb : 2 ≤ b.val.length := by
    have : 1 ≤ a.val.length := List.length_pos.mpr hane
    omega
  have hbz : b.val ≠ [0] := by
    intro hc; rw [hc] at hlb; simp at hlb
  have h2 : 10 ^ (b.val.length - 1) ≤ lv b.val :=
    pow_le_lv _ hbne (fun hc => hbz (hbnorm hc))
  have h3 : 10 ^ a.val.length ≤ 10 ^ (b.val.length - 1) :=
    Nat.pow_le_pow_right (by omega) (by omega)
  omega

/-- Trichotomy for `OmniInt::compare` against the signed values. -/
theorem compareO_spec (a b : OmniInt) (ha : WF a) (hb : WF b) :
    (compareO a b = -1 ∧ value a < value b) ∨
    (compareO a b = 0 ∧ value a = value b) ∨
    (compareO a b = 1 ∧ value b < value a) := by
  have hlvz : ∀ (x : OmniInt), WF x → x.pos = false → 1 ≤ lv x.val := by
    intro x hx hpos
    rcases Nat.eq_zero_or_pos (lv x.val) with h0 | h0
    · exfalso
      have := (hx.2.2.2) (hx.lv_eq_zero_iff.mp h0)
      rw [hpos] at this; exact Bool.false_ne_true this
    · exact h0
  unfold compareO
  by_cases hsign : a.pos ≠ b.pos
  · rw [if_pos hsign]
    cases hap : a.pos with
    | true =>
      have hbp : b.pos = false := by
        cases hbp : b.pos
        · rfl
        · rw [hap, hbp] at hsign; simp at hsign
      right; right
      refine ⟨by simp, ?_⟩
      have h1 := hlvz b hb hbp
      have hva : value a = (lv a.val : Int) := by unfold value; rw [hap]; simp
      have hvb : value b = -(lv b.val : Int) := by unfold value; rw [hbp]; simp
      rw [hva, hvb]
      omega
    | false =>
      have hbp : b.pos = true := by
        cases hbp : b.pos
        · rw [hap, hbp] at hsign; simp at hsign
        · rfl
      left
      refine ⟨by simp, ?_⟩
      have h1 := hlvz a ha hap
      have hva : value a = -(lv a.val : Int) := by unfold value; rw [hap]; simp
      have hvb : value b = (lv b.val : Int) := by unfold value; rw [hbp]; simp
      rw [hva, hvb]
      omega
  · rw [if_neg hsign]
    have hab : a.pos = b.pos := by
      by_cases h : a.pos = b.pos
      · exact h
      · exact absurd h hsign
    by_cases hzz : a.val = [0] ∧ b.val = [0]
    · rw [if_pos hzz]
      right; left
      refine ⟨rfl, ?_⟩
      unfold value
      rw [hzz.1, hzz.2]
      cases a.pos <;> cases b.pos <;> simp [lv]
    · rw [if_neg hzz]
      -- magnitude comparison, scaled by the sign
      have key : (a.val.length < b.val.length ∧ lv a.val < lv b.val) ∨
          (¬ a.val.length < b.val.length ∧ ¬ b.val.length < a.val.length ∧
            b.val.length = a.val.length) ∨
          (b.val.length < a.val.length ∧ ¬ a.val.length < b.val.length ∧
            lv b.val < lv a.val) := by
        rcases Nat.lt_trichotomy a.val.length b.val.length with h | h | h
        · exact Or.inl ⟨h, lv_lt_of_length_lt ha hb h⟩
        · exact Or.inr (Or.inl ⟨by omega, by omega, h.symm⟩)
        · exact Or.inr (Or.inr ⟨h, by omega, lv_lt_of_length_lt hb ha h⟩)
      have hval : ∀ (s : Bool), a.pos = s → b.pos = s →
          (value a = if s then (lv a.val : Int) else -(lv a.val : Int)) ∧
          (value b = if s then (lv b.val : Int) else -(lv b.val : Int)) := by
        intro s hsa hsb
        unfold value
        rw [hsa, hsb]
        exact ⟨rfl, rfl⟩
      rcases key with ⟨hl, hv⟩ | ⟨hl1, hl2, hleq⟩ | ⟨hl, hl2, hv⟩
      · rw [if_pos hl]
        cases hap : a.pos with
        | true =>
          obtain ⟨hva, hvb⟩ := hval true hap (hab ▸ hap)
          left
          refine ⟨by norm_num, ?_⟩
          rw [hva, hvb]; simp; exact_mod_cast hv
        | false =>
          obtain ⟨hva, hvb⟩ := hval false hap (hab ▸ hap)
          right; right
          refine ⟨by norm_num, ?_⟩
          rw [hva, hvb]; simp; exact_mod_cast hv
      · rw [if_neg hl1, if_neg hl2]
        have hcd := cmpDigitsMSB_spec a.val.reverse b.val.reverse
          (by simp [List.length_reverse]; omega)
          (fun z hz => ha.2.1 z (List.mem_reverse.mp hz))
          (fun z hz => hb.2.1 z (List.mem_reverse.mp hz))
        have hms : ∀ (x : OmniInt), msbVal x.val.reverse = lv x.val := by
          intro x
          rw [← lv_reverse, List.reverse_reverse]
        rw [hms a, hms b] at hcd
        rcases hcd with ⟨h1, h2⟩ | ⟨h1, h2⟩ | ⟨h1, h2⟩
        · cases hap : a.pos with
          | true =>
            obtain ⟨hva, hvb⟩ := hval true hap (hab ▸ hap)
            left
            refine ⟨by rw [h1]; norm_num, ?_⟩
            rw [hva, hvb]; simp; exact_mod_cast h2
          | false =>
            obtain ⟨hva, hvb⟩ := hval false hap (hab ▸ hap)
            right; right
            refine ⟨by rw [h1]; norm_num, ?_⟩
            rw [hva, hvb]; simp; exact_mod_cast h2
        · right; left
          refine ⟨by rw [h1]; norm_num, ?_⟩
          cases hap : a.pos with
          | true =>
            obtain ⟨hva, hvb⟩ := hval true hap (hab ▸ hap)
            rw [hva, hvb]; simp; exact_mod_cast h2
          | false =>
            obtain ⟨hva, hvb⟩ := hval false hap (hab ▸ hap)
            rw [hva, hvb]; simp; exact_mod_cast h2
        · cases hap : a.pos with
          | true =>
            obtain ⟨hva, hvb⟩ := hval true hap (hab ▸ hap)
            right; right
            refine ⟨by rw [h1]; norm_num, ?_⟩
            rw [hva, hvb]; simp; exact_mod_cast h2
          | false =>
            obtain ⟨hva, hvb⟩ := hval false hap (hab ▸ hap)
            left
            refine ⟨by rw [h1]; norm_num, ?_⟩
            rw [hva, hvb]; simp; exact_mod_cast h2
      · rw [if_neg hl2, if_pos hl]
        cases hap : a.pos with
        | true =>
          obtain ⟨hva, hvb⟩ := hval true hap (hab ▸ hap)
          right; right
          refine ⟨by norm_num, ?_⟩
          rw [hva, hvb]; simp; exact_mod_cast hv
        | false =>
          obtain ⟨hva, hvb⟩ := hval false hap (hab ▸ hap)
          left
          refine ⟨by norm_num, ?_⟩
          rw [hva, hvb]; simp; exact_mod_cast hv

theorem compareO_eq_neg_one_iff {a b : OmniInt} (ha : WF a) (hb : WF b) :
    compareO a b = -1 ↔ value a < value b := by
  rcases compareO_spec a b ha hb with ⟨h1, h2⟩ | ⟨h1, h2⟩ | ⟨h1, h2⟩ <;>
    rw [h1] <;> constructor <;> intro h <;> first | exact h2 | omega |
      (exfalso; omega)

theorem compareO_eq_zero_iff {a b : OmniInt} (ha : WF a) (hb : WF b) :
    compareO a b = 0 ↔ value a = value b := by
  rcases compareO_spec a b ha hb with ⟨h1, h2⟩ | ⟨h1, h2⟩ | ⟨h1, h2⟩ <;>
    rw [h1] <;> constructor <;> intro h <;> first | exact h2 | omega |
      (exfalso; omega)

theorem compareO_eq_one_iff {a b : OmniInt} (ha : WF a) (hb : WF b) :
    compareO a b = 1 ↔ value b < value a := by
  rcases compareO_spec a b ha hb with ⟨h1, h2⟩ | ⟨h1, h2⟩ | ⟨h1, h2⟩ <;>
    rw [h1] <;> constructor <;> intro h <;> first | exact h2 | omega |
      (exfalso; omega)

theorem geO_iff {a b : OmniInt} (ha : WF a) (hb : WF b) :
    geO a b ↔ value b ≤ value a := by
  unfold geO
  rcases compareO_spec a b ha hb with ⟨h1, h2⟩ | ⟨h1, h2⟩ | ⟨h1, h2⟩ <;>
    rw [h1] <;> constructor <;> intro h <;> omega

theorem ltO_iff {a b : OmniInt} (ha : WF a) (hb : WF b) :
    ltO a b ↔ value a < value b := by
  unfold ltO; exact compareO_eq_neg_one_iff ha hb

theorem gtO_iff {a b : OmniInt} (ha : WF a) (hb : WF b) :
    gtO a b ↔ value b < value a := by
  unfold gtO; exact compareO_eq_one_iff ha hb

theorem eqO_iff {a b : OmniInt} (ha : WF a) (hb : WF b) :
    eqO a b ↔ value a = value b := by
  unfold eqO; exact compareO_eq_zero_iff ha hb

/-! ## Additive core -/

/-- Magnitude addition with carry: the same-sign branch of `operator+=`
(resize to the longer length, digit-wise sum with carry, push a final
leftover carry). -/
def addMag : List Nat → List Nat → Nat → List Nat
  | [], [], c => if c = 0 then [] else [c]
  | [], e :: ys, c => (e + c) % 10 :: addMag [] ys ((e + c) / 10)
  | d :: xs, [], c => (d + c) % 10 :: addMag xs [] ((d + c) / 10)
  | d :: xs, e :: ys, c => (d + e + c) % 10 :: addMag xs ys ((d + e + c) / 10)

/-- Magnitude subtraction with borrow over the receiver's digits: the
same-sign branch of `operator-=` when `|a| ≥ |b|` (`diff < 0` in the C++
becomes `d < e + borrow` on naturals). -/
def subMag : List Nat → List Nat → Nat → List Nat
  | [], _, _ => []
  | d :: xs, [], b =>
      (if d < b then d + 10 - b else d - b) ::
        subMag xs [] (if d < b then 1 else 0)
  | d :: xs, e :: ys, b =>
      (if d < e + b then d + 10 - (e + b) else d - (e + b)) ::
        subMag xs ys (if d < e + b then 1 else 0)

mutual
/-- The C++ `operator+=` with explicit recursion fuel: same signs add the
magnitudes; differing signs delegate to `operator-=` with the negated
operand.  `none` models non-termination of the mutual recursion. -/
def addFuel : Nat → OmniInt → OmniInt → Option OmniInt
  | 0, _, _ => none
  | n + 1, a, b =>
    if a.pos = b.pos then some ⟨addMag a.val b.val 0, a.pos⟩
    else subFuel n a (negO b)

/-- The C++ `operator-=` with explicit recursion fuel: differing signs
delegate to `operator+=` with the negated operand; same signs with a smaller
receiver magnitude compute `-(other - *this)`; otherwise digit-wise borrow
subtraction followed by `trim` and zero-sign canonicalization. -/
def subFuel : Nat → OmniInt → OmniInt → Option OmniInt
  | 0, _, _ => none
  | n + 1, a, b =>
    if a.pos ≠ b.pos then addFuel n a (negO b)
    else if ltO (absO a) (absO b) then
      (subFuel n b a).map negO
    else
      some ⟨trimList (subMag a.val b.val 0),
        if trimList (subMag a.val b.val 0) = [0] then true else a.pos⟩
end

/-- `operator+` / `operator+=` at a fuel that covers every terminating
configuration of the C++ mutual recursion (its depth is at most 3). -/
def addO (a b : OmniInt) : Option OmniInt := addFuel 8 a b

/-- `operator-` / `operator-=` at the same covering fuel. -/
def subO (a b : OmniInt) : Option OmniInt := subFuel 8 a b

theorem lv_addMag (x y : List Nat) (c : Nat) :
    lv (addMag x y c) = lv x + lv y + c := by
  induction x generalizing y c with
  | nil =>
    induction y generalizing c with
    | nil =>
      by_cases hc : c = 0 <;> simp [addMag, hc, lv]
    | cons e ys ih =>
      simp only [addMag, lv_cons, lv_nil, ih]
      omega
  | cons d xs ih =>
    cases y with
    | nil =>
      simp only [addMag, lv_cons, lv_nil, ih]
      omega
    | cons e ys =>
      simp only [addMag, lv_cons, ih]
      omega

theorem getLast?_cons_ne (a : Nat) (l : List Nat) (h : l ≠ []) :
    (a :: l).getLast? = l.getLast? := by
  cases l with
  | nil => exact absurd rfl h
  | cons b t => exact List.getLast?_cons_cons ..

theorem addMag_digits : ∀ (x y : List Nat) (c : Nat), (∀ d ∈ x, d < 10) →
    (∀ d ∈ y, d < 10) → c ≤ 1 → ∀ d ∈ addMag x y c, d < 10
  | [], [], c, _, _, hc, d, hd => by
      by_cases h0 : c = 0
      · simp [addMag, h0] at hd
      · simp [addMag, h0] at hd
        omega
  | [], e :: ys, c, hx, hy, hc, d, hd => by
      have he : e < 10 := hy e (List.mem_cons_self ..)
      simp only [addMag, List.mem_cons] at hd
      rcases hd with rfl | hd
      · omega
      · exact addMag_digits [] ys ((e + c) / 10) hx
          (fun z hz => hy z (List.mem_cons_of_mem _ hz)) (by omega) d hd
  | d0 :: xs, [], c, hx, hy, hc, d, hd => by
      have h0 : d0 < 10 := hx d0 (List.mem_cons_self ..)
      simp only [addMag, List.mem_cons] at hd
      rcases hd with rfl | hd
      · omega
      · exact addMag_digits xs [] ((d0 + c) / 10)
          (fun z hz => hx z (List.mem_cons_of_mem _ hz)) hy (by omega) d hd
  | d0 :: xs, e :: ys, c, hx, hy, hc, d, hd => by
      have h0 : d0 < 10 := hx d0 (List.mem_cons_self ..)
      have he : e < 10 := hy e (List.mem_cons_self ..)
      simp only [addMag, List.mem_cons] at hd
      rcases hd with rfl | hd
      · omega
      · exact addMag_digits xs ys ((d0 + e + c) / 10)
          (fun z hz => hx z (List.mem_cons_of_mem _ hz))
          (fun z hz => hy z (List.mem_cons_of_mem _ hz)) (by omega) d hd

/-- Length/last-digit structure of `addMag`: either the result has the
length of the longer input, or it is one longer and ends in the nonzero
final carry. -/
theorem addMag_struct : ∀ (x y : List Nat) (c : Nat),
    (addMag x y c).length = max x.length y.length ∨
    ((addMag x y c).length = max x.length y.length + 1 ∧
      (addMag x y c).getLast? ≠ some 0)
  | [], [], c => by
      by_cases hc : c = 0
      · left; simp [addMag, hc]
      · right
        refine ⟨by simp [addMag, hc], ?_⟩
        simp only [addMag, if_neg hc, List.getLast?_singleton, ne_eq,
          Option.some.injEq]
        exact hc
  | [], e :: ys, c => by
      rcases addMag_struct [] ys ((e + c) / 10) with h | ⟨h1, h2⟩
      · left
        simp only [addMag, List.length_cons, h, List.length_nil]
        omega
      · right
        have hne : addMag [] ys ((e + c) / 10) ≠ [] :=
          List.ne_nil_of_length_pos (by omega)
        refine ⟨?_, ?_⟩
        · simp only [addMag, List.length_cons, h1, List.length_nil]
          omega
        · simp only [addMag]
          rwa [getLast?_cons_ne _ _ hne]
  | d :: xs, [], c => by
      rcases addMag_struct xs [] ((d + c) / 10) with h | ⟨h1, h2⟩
      · left
        simp only [addMag, List.length_cons, h, List.length_nil]
        omega
      · right
        have hne : addMag xs [] ((d + c) / 10) ≠ [] :=
          List.ne_nil_of_length_pos (by omega)
        refine ⟨?_, ?_⟩
        · simp only [addMag, List.length_cons, h1, List.length_nil]
          omega
        · simp only [addMag]
          rwa [getLast?_cons_ne _ _ hne]
  | d :: xs, e :: ys, c => by
      rcases addMag_struct xs ys ((d + e + c) / 10) with h | ⟨h1, h2⟩
      · left
        simp only [addMag, List.length_cons, h]
        omega
      · right
        have hne : addMag xs ys ((d + e + c) / 10) ≠ [] :=
          List.ne_nil_of_length_pos (by omega)
        refine ⟨?_, ?_⟩
        · simp only [addMag, List.length_cons, h1]
          omega
        · simp only [addMag]
          rwa [getLast?_cons_ne _ _ hne]

theorem subMag_length : ∀ (x y : List Nat) (b : Nat),
    (subMag x y b).length = x.length
  | [], _, _ => rfl
  | d :: xs, [], b => by
      simp only [subMag, List.length_cons]
      rw [subMag_length xs [] _]
  | d :: xs, e :: ys, b => by
      simp only [subMag, List.length_cons]
      rw [subMag_length xs ys _]

theorem subMag_digits : ∀ (x y : List Nat) (b : Nat), (∀ d ∈ x, d < 10) →
    b ≤ 1 → ∀ d ∈ subMag x y b, d < 10
  | [], _, _, _, _, d, hd => by simp [subMag] at hd
  | d0 :: xs, [], b, hx, hb, d, hd => by
      have h0 : d0 < 10 := hx d0 (List.mem_cons_self ..)
      simp only [subMag, List.mem_cons] at hd
      rcases hd with rfl | hd
      · split <;> omega
      · exact subMag_digits xs [] _
          (fun z hz => hx z (List.mem_cons_of_mem _ hz))
          (by split <;> omega) d hd
  | d0 :: xs, e :: ys, b, hx, hb, d, hd => by
      have h0 : d0 < 10 := hx d0 (List.mem_cons_self ..)
      simp only [subMag, List.mem_cons] at hd
      rcases hd with rfl | hd
      · split <;> omega
      · exact subMag_digits xs ys _
          (fun z hz => hx z (List.mem_cons_of_mem _ hz))
          (by split <;> omega) d hd

/-- Borrow subtraction is correct (stated additively, so no natural
subtraction appears): when no global underflow occurs, the result plus the
subtrahend plus the incoming borrow recovers the receiver. -/
theorem subMag_lv : ∀ (x y : List Nat) (b : Nat), (∀ d ∈ x, d < 10) →
    (∀ d ∈ y, d < 10) → b ≤ 1 → y.length ≤ x.length → lv y + b ≤ lv x →
    lv (subMag x y b) + lv y + b = lv x
  | [], [], b, _, _, _, _, hle => by
      simp only [lv_nil] at hle ⊢
      simp [subMag, lv]
      omega
  | [], e :: ys, b, _, _, _, hlen, _ => by simp at hlen
  | d0 :: xs, [], b, hx, hy, hb, hlen, hle => by
      have h0 : d0 < 10 := hx d0 (List.mem_cons_self ..)
      simp only [lv_nil, lv_cons] at hle ⊢
      by_cases hlt : d0 < b
      · have hrec := subMag_lv xs [] 1
          (fun z hz => hx z (List.mem_cons_of_mem _ hz)) hy (by omega)
          (by simp) (by simp [lv]; omega)
        simp only [subMag, if_pos hlt, lv_cons, lv_nil] at hrec ⊢
        omega
      · have hrec := subMag_lv xs [] 0
          (fun z hz => hx z (List.mem_cons_of_mem _ hz)) hy (by omega)
          (by simp) (by simp [lv])
        simp only [subMag, if_neg hlt, lv_cons, lv_nil] at hrec ⊢
        omega
  | d0 :: xs, e :: ys, b, hx, hy, hb, hlen, hle => by
      have h0 : d0 < 10 := hx d0 (List.mem_cons_self ..)
      have he : e < 10 := hy e (List.mem_cons_self ..)
      simp only [lv_cons] at hle ⊢
      simp only [List.length_cons, Nat.add_le_add_iff_right] at hlen
      have hxd := fun z hz => hx z (List.mem_cons_of_mem d0 hz)
      have hyd := fun z hz => hy z (List.mem_cons_of_mem e hz)
      by_cases hlt : d0 < e + b
      · have hys : lv ys + 1 ≤ lv xs := by omega
        have hrec := subMag_lv xs ys 1 hxd hyd (by omega) hlen hys
        simp only [subMag, if_pos hlt, lv_cons] at hrec ⊢
        omega
      · have hys : lv ys ≤ lv xs := by omega
        have hrec := subMag_lv xs ys 0 hxd hyd (by omega) hlen (by omega)
        simp only [subMag, if_neg hlt, lv_cons] at hrec ⊢
        omega

/-- Magnitude lower bound for same-sign addition: unless both operands are
zero, the digit sum dominates `10^(max-1)`. -/
theorem addMag_lower (a b : OmniInt) (ha : WF a) (hb : WF b)
    (hnz : ¬ (a.val = [0] ∧ b.val = [0])) :
    10 ^ (max a.val.length b.val.length - 1) ≤ lv a.val + lv b.val := by
  rcases Nat.le_total a.val.length b.val.length with hle | hle
  · have hmax : max a.val.length b.val.length = b.val.length :=
      Nat.max_eq_right hle
    rw [hmax]
    by_cases hbz : b.val = [0]
    · rw [hbz] at hle ⊢
      have hane : a.val ≠ [] := ha.1
      have ha1 : a.val.length = 1 := by
        have := List.length_pos.mpr hane
        simp only [List.length_singleton] at hle
        omega
      have haz : a.val ≠ [0] := fun hc => hnz ⟨hc, hbz⟩
      have : lv a.val ≠ 0 := fun hc => haz (ha.lv_eq_zero_iff.mp hc)
      simp only [List.length_singleton, pow_zero]
      omega
    · have := pow_le_lv b.val hb.1 (fun hc => hbz (hb.2.2.1 hc))
      omega
  · have hmax : max a.val.length b.val.length = a.val.length :=
      Nat.max_eq_left hle
    rw [hmax]
    by_cases haz : a.val = [0]
    · rw [haz] at hle ⊢
      have hbne : b.val ≠ [] := hb.1
      have hbz : b.val ≠ [0] := fun hc => hnz ⟨haz, hc⟩
      have : lv b.val ≠ 0 := fun hc => hbz (hb.lv_eq_zero_iff.mp hc)
      simp only [List.length_singleton, pow_zero]
      omega
    · have := pow_le_lv a.val ha.1 (fun hc => haz (ha.2.2.1 hc))
      omega

/-- Build a well-formedness witness from facts about the digit list. -/
theorem WF_mk (L : List Nat) (p : Bool) (h1 : L ≠ []) (h2 : ∀ d ∈ L, d < 10)
    (h3 : L.getLast? = some 0 → L = [0]) (h4 : L = [0] → p = true) :
    WF ⟨L, p⟩ :=
  ⟨h1, h2, h3, h4⟩

/-- The result of the same-sign addition branch is well-formed. -/
theorem WF_addMag (a b : OmniInt) (ha : WF a) (hb : WF b) :
    WF ⟨addMag a.val b.val 0, a.pos⟩ := by
  have hdig : ∀ d ∈ addMag a.val b.val 0, d < 10 :=
    addMag_digits a.val b.val 0 ha.2.1 hb.2.1 (by omega)
  have hlv : lv (addMag a.val b.val 0) = lv a.val + lv b.val := by
    simp [lv_addMag]
  have hlen1 : 1 ≤ a.val.length := List.length_pos.mpr ha.1
  have hzeropos : addMag a.val b.val 0 = [0] → a.pos = true := by
    intro hl
    have h0 : lv (addMag a.val b.val 0) = 0 := by rw [hl]; rfl
    rw [hlv] at h0
    have haz : a.val = [0] := ha.lv_eq_zero_iff.mp (by omega)
    exact ha.2.2.2 haz
  rcases addMag_struct a.val b.val 0 with hst | ⟨hst, hlast⟩
  · -- result has the length of the longer input
    refine WF_mk _ _ (List.ne_nil_of_length_pos (by rw [hst]; omega)) hdig
      ?_ hzeropos
    intro hl
    by_cases hzz : a.val = [0] ∧ b.val = [0]
    · rw [hzz.1, hzz.2]
      simp [addMag]
    · exfalso
      have h1 := lv_lt_of_getLast_zero _ hdig hl
      have h2 := addMag_lower a b ha hb hzz
      rw [hlv, hst] at h1
      omega
  · refine WF_mk _ _ (List.ne_nil_of_length_pos (by rw [hst]; omega)) hdig
      ?_ hzeropos
    intro hl
    exact absurd hl hlast

/-- Value of the same-sign addition result. -/
theorem value_addMag (a b : OmniInt) (hs : a.pos = b.pos) :
    value ⟨addMag a.val b.val 0, a.pos⟩ = value a + value b := by
  unfold value
  simp only [lv_addMag, Nat.add_zero]
  cases hp : a.pos with
  | true =>
    rw [hs] at hp
    simp only [hp, if_pos]
    push_cast
    ring
  | false =>
    rw [hs] at hp
    simp only [hp]
    push_cast
    ring

/-- The digit-subtraction branch of `operator-=`: well-formedness and value,
assuming same signs and `|b| ≤ |a|`. -/
theorem subFuel_digit (n : Nat) (a b : OmniInt) (ha : WF a) (hb : WF b)
    (hs : a.pos = b.pos) (hge : lv b.val ≤ lv a.val) :
    ∃ r, subFuel (n + 1) a b = some r ∧ WF r ∧
      value r = value a - value b := by
  have hlen : b.val.length ≤ a.val.length := by
    by_contra hc
    exact absurd (lv_lt_of_length_lt ha hb (by omega)) (by omega)
  have hlv := subMag_lv a.val b.val 0 ha.2.1 hb.2.1 (by omega) hlen
    (by omega)
  have hnotlt : ¬ ltO (absO a) (absO b) := by
    rw [ltO_iff (WF_absO a ha) (WF_absO b hb), value_absO, value_absO]
    omega
  have heq : subFuel (n + 1) a b =
      some ⟨trimList (subMag a.val b.val 0),
        if trimList (subMag a.val b.val 0) = [0] then true else a.pos⟩ := by
    unfold subFuel
    rw [if_neg (by simp [hs]), if_neg hnotlt]
  refine ⟨_, heq, ?_, ?_⟩
  · refine WF_mk _ _ ?_ ?_ ?_ ?_
    · exact trimList_ne_nil _ (by
        intro hc
        have hl := subMag_length a.val b.val 0
        rw [hc] at hl
        simp only [List.length_nil] at hl
        exact absurd (List.eq_nil_of_length_eq_zero (by omega)) ha.1)
    · exact trimList_digits _ (subMag_digits a.val b.val 0 ha.2.1 (by omega))
    · exact trimList_getLast _
    · intro h0
      rw [if_pos h0]
  · have htv : lv (trimList (subMag a.val b.val 0)) + lv b.val = lv a.val := by
      rw [lv_trimList]
      omega
    have hva : value a = if a.pos then (lv a.val : Int) else -(lv a.val : Int) :=
      rfl
    have hvb : value b = if b.pos then (lv b.val : Int) else -(lv b.val : Int) :=
      rfl
    by_cases h0 : trimList (subMag a.val b.val 0) = [0]
    · have hz : lv a.val = lv b.val := by
        rw [h0] at htv
        simp only [lv_cons, lv_nil] at htv
        omega
      have hv0 : value ⟨trimList (subMag a.val b.val 0),
          if trimList (subMag a.val b.val 0) = [0] then true else a.pos⟩
            = 0 := by
        unfold value
        rw [if_pos (by rw [if_pos h0]), h0]
        simp [lv]
      rw [hv0, hva, hvb, ← hs]
      cases a.pos <;> simp [hz]
    · have hv0 : value ⟨trimList (subMag a.val b.val 0),
          if trimList (subMag a.val b.val 0) = [0] then true else a.pos⟩ =
            if a.pos then (lv (trimList (subMag a.val b.val 0)) : Int)
              else -(lv (trimList (subMag a.val b.val 0)) : Int) := by
        unfold value
        rw [if_neg h0]
      rw [hv0, hva, hvb, ← hs]
      cases a.pos <;> simp <;> omega

/-- Full specification of `operator-=` at sufficient fuel: it terminates and
computes the difference whenever the operand is nonzero or the receiver is
non-negative (the remaining case is the genuinely divergent one). -/
theorem subFuel_spec (n : Nat) (a b : OmniInt) (hn : 3 ≤ n) (ha : WF a)
    (hb : WF b) (hterm : b.val ≠ [0] ∨ a.pos = true) :
    ∃ r, subFuel n a b = some r ∧ WF r ∧ value r = value a - value b := by
  obtain ⟨m, rfl⟩ : ∃ m, n = m + 1 := ⟨n - 1, by omega⟩
  by_cases hsign : a.pos = b.pos
  · -- same signs
    by_cases hlt : ltO (absO a) (absO b)
    · -- receiver magnitude smaller: -(other - *this)
      have hlt' : lv a.val < lv b.val := by
        rw [ltO_iff (WF_absO a ha) (WF_absO b hb), value_absO, value_absO]
          at hlt
        exact_mod_cast hlt
      obtain ⟨m', rfl⟩ : ∃ k, m = k + 1 := ⟨m - 1, by omega⟩
      obtain ⟨r0, hr0, hwf0, hv0⟩ :=
        subFuel_digit m' b a hb ha hsign.symm (by omega)
      refine ⟨negO r0, ?_, WF_negO r0 hwf0, ?_⟩
      · unfold subFuel
        rw [if_neg (by simp [hsign]), if_pos hlt, hr0]
        rfl
      · rw [value_negO, hv0]
        ring
    · -- digit subtraction
      have hge : lv b.val ≤ lv a.val := by
        by_contra hc
        exact hlt (by
          rw [ltO_iff (WF_absO a ha) (WF_absO b hb), value_absO, value_absO]
          omega)
      exact subFuel_digit m a b ha hb hsign hge
  · -- differing signs: delegate to addition of the negation
    have hbz : b.val ≠ [0] := by
      rcases hterm with h | h
      · exact h
      · intro hc
        have hbp : b.pos = true := hb.2.2.2 hc
        rw [h, hbp] at hsign
        exact hsign rfl
    have hneg : (negO b).pos = a.pos := by
      unfold negO
      rw [if_neg hbz]
      cases hap : a.pos <;> cases hbp : b.pos <;>
        first
          | rfl
          | (exfalso; rw [hap, hbp] at hsign; simp at hsign)
  -- the nested addition is same-sign, hence one unfolding step suffices
    obtain ⟨m', rfl⟩ : ∃ k, m = k + 1 := ⟨m - 1, by omega⟩
    refine ⟨⟨addMag a.val (negO b).val 0, a.pos⟩, ?_, ?_, ?_⟩
    · unfold subFuel addFuel
      rw [if_pos (by simp [hsign]), if_pos hneg.symm]
    · exact WF_addMag a (negO b) ha (WF_negO b hb)
    · rw [value_addMag a (negO b) hneg.symm, value_negO]
      ring

/-- Full specification of `operator+=` at sufficient fuel. -/
theorem addFuel_spec (n : Nat) (a b : OmniInt) (hn : 4 ≤ n) (ha : WF a)
    (hb : WF b) (hterm : b.val ≠ [0] ∨ a.pos = true) :
    ∃ r, addFuel n a b = some r ∧ WF r ∧ value r = value a + value b := by
  obtain ⟨m, rfl⟩ : ∃ m, n = m + 1 := ⟨n - 1, by omega⟩
  by_cases hsign : a.pos = b.pos
  · refine ⟨⟨addMag a.val b.val 0, a.pos⟩, ?_, WF_addMag a b ha hb, ?_⟩
    · unfold addFuel
      rw [if_pos hsign]
    · exact value_addMag a b hsign
  · have hbz : b.val ≠ [0] := by
      rcases hterm with h | h
      · exact h
      · intro hc
        have hbp : b.pos = true := hb.2.2.2 hc
        rw [h, hbp] at hsign
        exact hsign rfl
    have hstep : addFuel (m + 1) a b = subFuel m a (negO b) := by
      unfold addFuel
      rw [if_neg hsign]
    obtain ⟨r, hr, hwf, hv⟩ := subFuel_spec m a (negO b) (by omega) ha
      (WF_negO b hb) (Or.inl (by
        unfold negO
        rw [if_neg hbz]
        exact hbz))
    refine ⟨r, by rw [hstep, hr], hwf, ?_⟩
    rw [hv, value_negO]
    ring

/-- Any value the fueled addition/subtraction pair returns is well-formed
(for well-formed operands), at every fuel. -/
theorem addsubFuel_WF (n : Nat) :
    (∀ a b r, WF a → WF b → addFuel n a b = some r → WF r) ∧
    (∀ a b r, WF a → WF b → subFuel n a b = some r → WF r) := by
  induction n with
  | zero =>
    constructor
    · intro a b r _ _ h
      simp [addFuel] at h
    · intro a b r _ _ h
      simp [subFuel] at h
  | succ m ih =>
    constructor
    · intro a b r ha hb h
      unfold addFuel at h
      by_cases hs : a.pos = b.pos
      · rw [if_pos hs] at h
        injection h with h
        rw [← h]
        exact WF_addMag a b ha hb
      · rw [if_neg hs] at h
        exact ih.2 a (negO b) r ha (WF_negO b hb) h
    · intro a b r ha hb h
      unfold subFuel at h
      by_cases hs : a.pos = b.pos
      · rw [if_neg (by simp [hs])] at h
        by_cases hlt : ltO (absO a) (absO b)
        · rw [if_pos hlt] at h
          rcases hmap : subFuel m b a with _ | r0
          · rw [hmap] at h; simp at h
          · rw [hmap] at h
            simp only [Option.map_some'] at h
            injection h with h
            rw [← h]
            exact WF_negO r0 (ih.2 b a r0 hb ha hmap)
        · rw [if_neg hlt] at h
          injection h with h
          rw [← h]
          refine WF_mk _ _ ?_ ?_ ?_ ?_
          · exact trimList_ne_nil _ (by
              intro hc
              have hl := subMag_length a.val b.val 0
              rw [hc] at hl
              simp only [List.length_nil] at hl
              exact absurd (List.eq_nil_of_length_eq_zero (by omega)) ha.1)
          · exact trimList_digits _
              (subMag_digits a.val b.val 0 ha.2.1 (by omega))
          · exact trimList_getLast _
          · intro h0
            rw [if_pos h0]
      · rw [if_pos (by simp [hs])] at h
        exact ih.1 a (negO b) r ha (WF_negO b hb) h

/-- Negating the canonical zero returns it unchanged (the C++ unary minus
special-cases zero), keeping `pos = true`. -/
theorem negO_zeroO : negO zeroO = zeroO := rfl

/-- The genuinely divergent configuration of the C++ `operator+=` and
`operator-=`: a negative receiver with a zero operand ping-pongs between the
two operators forever, because negating zero does not flip the sign
mismatch.  No amount of fuel produces a result. -/
theorem addsubFuel_neg_zero_none (n : Nat) (a : OmniInt) (ha : a.pos = false) :
    addFuel n a zeroO = none ∧ subFuel n a zeroO = none := by
  induction n generalizing a with
  | zero => exact ⟨rfl, rfl⟩
  | succ m ih =>
    constructor
    · unfold addFuel
      rw [if_neg (by rw [ha]; simp [zeroO]), negO_zeroO]
      exact (ih a ha).2
    · unfold subFuel
      rw [if_pos (by rw [ha]; simp [zeroO]), negO_zeroO]
      exact (ih a ha).1

/-! ## Multiplicative core -/

/-- One row of the C++ `operator*=` inner loop: accumulate `ai * b[j]` into
the buffer with an immediate per-step carry, continuing while digits or a
carry remain (`j < other.val.size() || carry`).  The buffer is walked
structurally; the C++ would index out of bounds if a carry survived past the
buffer end, a state unreachable for digit inputs, modelled by `[]`. -/
def rowStep (ai : Nat) : List Nat → List Nat → Nat → List Nat
  | [], buf, c =>
      if c = 0 then buf
      else
        match buf with
        | [] => []
        | d :: rest => (d + c) % 10 :: rowStep ai [] rest ((d + c) / 10)
  | _ :: _, [], _ => []
  | b0 :: brest, d :: rest, c =>
      (d + c + ai * b0) % 10 :: rowStep ai brest rest ((d + c + ai * b0) / 10)
termination_by bv buf _ => buf.length

/-- The outer loop of `operator*=`: the row for each receiver digit is added
into the buffer, each row shifted one position further (realized by consing
the skipped cell). -/
def mulAcc (bv : List Nat) : List Nat → List Nat → List Nat
  | [], buf => buf
  | a0 :: arest, buf =>
      match rowStep a0 bv buf 0 with
      | [] => []
      | d :: rest => d :: mulAcc bv arest rest

/-- `OmniInt::operator*=`: zero short-circuits to canonical zero; otherwise
schoolbook accumulation into a buffer of length `len(a)+len(b)`, XOR sign,
and a final trim. -/
def mulO (a b : OmniInt) : OmniInt :=
  if a.val = [0] ∨ b.val = [0] then ⟨[0], true⟩
  else
    ⟨trimList (mulAcc b.val a.val
        (List.replicate (a.val.length + b.val.length) 0)),
      a.pos == b.pos⟩

theorem rowStep_length (ai : Nat) : ∀ (bv buf : List Nat) (c : Nat),
    (rowStep ai bv buf c).length = buf.length
  | [], buf, c => by
      unfold rowStep
      by_cases h0 : c = 0
      · rw [if_pos h0]
      · rw [if_neg h0]
        match buf with
        | [] => rfl
        | d :: rest =>
          simp only [List.length_cons]
          rw [rowStep_length ai [] rest _]
  | _ :: _, [], _ => by simp [rowStep]
  | b0 :: brest, d :: rest, c => by
      unfold rowStep
      simp only [List.length_cons]
      rw [rowStep_length ai brest rest _]
termination_by bv buf _ => buf.length

theorem rowStep_digits (ai : Nat) : ∀ (bv buf : List Nat) (c : Nat),
    (∀ d ∈ buf, d < 10) → ∀ d ∈ rowStep ai bv buf c, d < 10
  | [], buf, c => by
      intro hbuf d hd
      unfold rowStep at hd
      by_cases h0 : c = 0
      · rw [if_pos h0] at hd
        exact hbuf d hd
      · rw [if_neg h0] at hd
        match buf, hbuf with
        | [], _ => simp at hd
        | e :: rest, hbuf =>
          simp only [List.mem_cons] at hd
          rcases hd with rfl | hd
          · omega
          · exact rowStep_digits ai [] rest _
              (fun z hz => hbuf z (List.mem_cons_of_mem _ hz)) d hd
  | _ :: _, [], _ => by
      intro _ d hd
      simp [rowStep] at hd
  | b0 :: brest, e :: rest, c => by
      intro hbuf d hd
      unfold rowStep at hd
      simp only [List.mem_cons] at hd
      rcases hd with rfl | hd
      · omega
      · exact rowStep_digits ai brest rest _
          (fun z hz => hbuf z (List.mem_cons_of_mem _ hz)) d hd
termination_by bv buf _ => buf.length

/-- Value preservation for one multiplication row, provided the final value
fits the buffer (no out-of-bounds carry). -/
theorem rowStep_lv (ai : Nat) : ∀ (bv buf : List Nat) (c : Nat),
    lv buf + c + ai * lv bv < 10 ^ buf.length →
    lv (rowStep ai bv buf c) = lv buf + c + ai * lv bv
  | [], buf, c => by
      intro hfit
      unfold rowStep
      by_cases h0 : c = 0
      · rw [if_pos h0]
        simp [lv, h0]
      · rw [if_neg h0]
        match buf, hfit with
        | [], hfit => simp [lv] at hfit ⊢; omega
        | d :: rest, hfit =>
          simp only [lv_cons, lv_nil, List.length_cons, Nat.mul_zero,
            Nat.add_zero] at hfit ⊢
          have hrec := rowStep_lv ai [] rest ((d + c) / 10) (by
            simp only [lv_nil, Nat.mul_zero, Nat.add_zero]
            have h10 : 10 ^ (rest.length + 1) = 10 * 10 ^ rest.length :=
              pow_succ' 10 rest.length
            omega)
          simp only [lv_nil, Nat.mul_zero, Nat.add_zero] at hrec
          rw [hrec]
          omega
  | b0 :: brest, [], c => by
      intro hfit
      generalize hP : ai * lv (b0 :: brest) = P at hfit ⊢
      simp only [lv_nil, List.length_nil, pow_zero, Nat.zero_add] at hfit
      have h1 : c = 0 := by omega
      have h2 : P = 0 := by omega
      simp [rowStep, lv, h1, h2]
  | b0 :: brest, d :: rest, c => by
      intro hfit
      have hrec := rowStep_lv ai brest rest ((d + c + ai * b0) / 10)
      unfold rowStep
      simp only [lv_cons, List.length_cons] at hfit ⊢
      have hsplit : ai * (b0 + 10 * lv brest) =
          ai * b0 + 10 * (ai * lv brest) := by ring
      rw [hsplit] at hfit ⊢
      generalize hX : ai * b0 = X at hfit hrec ⊢
      generalize hY : ai * lv brest = Y at hfit hrec ⊢
      have h10 : 10 ^ (rest.length + 1) = 10 * 10 ^ rest.length :=
        pow_succ' 10 rest.length
      rw [hrec (by omega)]
      omega
termination_by bv buf _ => buf.length

theorem mulAcc_length (bv : List Nat) : ∀ (av buf : List Nat),
    (mulAcc bv av buf).length = buf.length
  | [], buf => rfl
  | a0 :: arest, buf => by
      unfold mulAcc
      have hrl := rowStep_length a0 bv buf 0
      match hrow : rowStep a0 bv buf 0 with
      | [] =>
        rw [hrow] at hrl
        simp only [List.length_nil] at hrl ⊢
        omega
      | d :: rest =>
        rw [hrow] at hrl
        simp only [List.length_cons] at hrl ⊢
        rw [mulAcc_length bv arest rest]
        omega

theorem mulAcc_digits (bv : List Nat) : ∀ (av buf : List Nat),
    (∀ d ∈ buf, d < 10) → ∀ d ∈ mulAcc bv av buf, d < 10
  | [], buf => fun hbuf => hbuf
  | a0 :: arest, buf => by
      intro hbuf d hd
      unfold mulAcc at hd
      have hrd := rowStep_digits a0 bv buf 0 hbuf
      match hrow : rowStep a0 bv buf 0 with
      | [] =>
        rw [hrow] at hd
        simp at hd
      | e :: rest =>
        rw [hrow] at hd hrd
        simp only [List.mem_cons] at hd
        rcases hd with rfl | hd
        · exact hrd d (List.mem_cons_self ..)
        · exact mulAcc_digits bv arest rest
            (fun z hz => hrd z (List.mem_cons_of_mem _ hz)) d hd

/-- Value of the full schoolbook accumulation, provided the product fits the
buffer. -/
theorem mulAcc_lv (bv : List Nat) : ∀ (av buf : List Nat),
    lv buf + lv av * lv bv < 10 ^ buf.length →
    lv (mulAcc bv av buf) = lv buf + lv av * lv bv
  | [], buf => by
      intro _
      simp [mulAcc, lv]
  | a0 :: arest, buf => by
      intro hfit
      have hsplit : lv (a0 :: arest) * lv bv =
          a0 * lv bv + 10 * (lv arest * lv bv) := by
        rw [lv_cons]; ring
      rw [hsplit] at hfit ⊢
      have hrow_lv := rowStep_lv a0 bv buf 0
      have hrow_len := rowStep_length a0 bv buf 0
      unfold mulAcc
      match hrow2 : rowStep a0 bv buf 0 with
      | [] =>
        rw [hrow2] at hrow_len
        simp only [List.length_nil] at hrow_len
        have hbuf : buf = [] := List.eq_nil_of_length_eq_zero hrow_len.symm
        subst hbuf
        simp only [lv_nil, List.length_nil, pow_zero] at hfit ⊢
        generalize hX : a0 * lv bv = X at hfit
        generalize hY : lv arest * lv bv = Y at hfit ⊢
        omega
      | d :: rest =>
        rw [hrow2] at hrow_lv hrow_len
        have hrec := mulAcc_lv bv arest rest
        simp only [lv_cons, List.length_cons] at hrow_lv hrow_len ⊢
        have h10 : 10 ^ buf.length = 10 * 10 ^ rest.length := by
          rw [← hrow_len, pow_succ']
        generalize hX : a0 * lv bv = X at hfit hrow_lv ⊢
        generalize hY : lv arest * lv bv = Y at hfit hrec ⊢
        have hrow := hrow_lv (by omega)
        rw [hrec (by omega)]
        omega

theorem lv_replicate_zero (n : Nat) : lv (List.replicate n 0) = 0 := by
  induction n with
  | zero => rfl
  | succ m ih => simp [List.replicate_succ, lv_cons, ih]

theorem value_eq_zero_iff_lv (x : OmniInt) : value x = 0 ↔ lv x.val = 0 := by
  unfold value
  cases x.pos <;> simp

/-- Value of the multiplication buffer before trimming. -/
theorem mulO_buffer_lv (a b : OmniInt) (ha : WF a) (hb : WF b) :
    lv (mulAcc b.val a.val
      (List.replicate (a.val.length + b.val.length) 0)) =
    lv a.val * lv b.val := by
  have h1 := lv_lt_pow a.val ha.2.1
  have h2 := lv_lt_pow b.val hb.2.1
  have hbound : lv a.val * lv b.val < 10 ^ (a.val.length + b.val.length) := by
    calc lv a.val * lv b.val ≤ lv a.val * 10 ^ b.val.length :=
          Nat.mul_le_mul_left _ (le_of_lt h2)
      _ < 10 ^ a.val.length * 10 ^ b.val.length :=
          mul_lt_mul_of_pos_right h1 (Nat.pos_pow_of_pos _ (by omega))
      _ = 10 ^ (a.val.length + b.val.length) := (pow_add 10 _ _).symm
  have := mulAcc_lv b.val a.val
    (List.replicate (a.val.length + b.val.length) 0) (by
      rw [lv_replicate_zero, List.length_replicate]
      omega)
  rw [lv_replicate_zero] at this
  simpa using this

theorem value_mulO (a b : OmniInt) (ha : WF a) (hb : WF b) :
    value (mulO a b) = value a * value b := by
  unfold mulO
  by_cases hz : a.val = [0] ∨ b.val = [0]
  · rw [if_pos hz]
    have hz2 : value a * value b = 0 := by
      rcases hz with h | h
      · have hva : value a = 0 := by
          rw [value_eq_zero_iff_lv, h]; rfl
        rw [hva]; ring
      · have hvb : value b = 0 := by
          rw [value_eq_zero_iff_lv, h]; rfl
        rw [hvb]; ring
    rw [hz2]
    rfl
  · rw [if_neg hz]
    push_neg at hz
    have hval_trim : lv (trimList (mulAcc b.val a.val
        (List.replicate (a.val.length + b.val.length) 0))) =
        lv a.val * lv b.val := by
      rw [lv_trimList, mulO_buffer_lv a b ha hb]
    unfold value
    cases hap : a.pos <;> cases hbp : b.pos <;>
      simp [hap, hbp, hval_trim] <;> push_cast <;> ring

theorem WF_mulO (a b : OmniInt) (ha : WF a) (hb : WF b) : WF (mulO a b) := by
  unfold mulO
  by_cases hz : a.val = [0] ∨ b.val = [0]
  · rw [if_pos hz]; exact WF_zeroO
  · rw [if_neg hz]
    push_neg at hz
    have hanz : lv a.val ≠ 0 := fun hc => hz.1 (ha.lv_eq_zero_iff.mp hc)
    have hbnz : lv b.val ≠ 0 := fun hc => hz.2 (hb.lv_eq_zero_iff.mp hc)
    have hlen : (mulAcc b.val a.val
        (List.replicate (a.val.length + b.val.length) 0)).length =
        a.val.length + b.val.length := by
      rw [mulAcc_length, List.length_replicate]
    have hlena : 1 ≤ a.val.length := List.length_pos.mpr ha.1
    refine WF_mk _ _ ?_ ?_ ?_ ?_
    · exact trimList_ne_nil _ (List.ne_nil_of_length_pos (by omega))
    · exact trimList_digits _ (mulAcc_digits b.val a.val _
        (fun d hd => by
          have := List.eq_of_mem_replicate hd
          omega))
    · exact trimList_getLast _
    · intro h0
      exfalso
      have : lv (trimList (mulAcc b.val a.val
          (List.replicate (a.val.length + b.val.length) 0))) = 0 := by
        rw [h0]; rfl
      rw [lv_trimList, mulO_buffer_lv a b ha hb] at this
      exact absurd this (Nat.mul_ne_zero hanz hbnz)

/-! ## Construction from a native integer -/

/-- Digits of a natural number, least-significant first (the
`while (magnitude > 0)` loop of the `long long` constructor); `0` yields the
empty list, matching the loop not running. -/
def natDigits : Nat → List Nat
  | 0 => []
  | n + 1 => (n + 1) % 10 :: natDigits ((n + 1) / 10)
decreasing_by exact Nat.div_lt_self (Nat.succ_pos n) (by omega)

/-- `OmniInt::OmniInt(long long)`: zero gets the canonical representation;
otherwise sign `n > 0` and the digit expansion of `|n|` (the C++ computes
`|n|` through an unsigned cast, which is exact on the whole `long long`
range including its minimum). -/
def fromInt (n : Int) : OmniInt :=
  if n = 0 then ⟨[0], true⟩
  else ⟨natDigits n.natAbs, decide (0 < n)⟩

theorem lv_natDigits : ∀ n : Nat, lv (natDigits n) = n
  | 0 => by simp [natDigits, lv]
  | n + 1 => by
      have hrec := lv_natDigits ((n + 1) / 10)
      unfold natDigits
      simp only [lv_cons, hrec]
      omega
decreasing_by exact Nat.div_lt_self (Nat.succ_pos n) (by omega)

theorem natDigits_digits : ∀ n : Nat, ∀ d ∈ natDigits n, d < 10
  | 0 => by intro d hd; simp [natDigits] at hd
  | n + 1 => by
      intro d hd
      unfold natDigits at hd
      simp only [List.mem_cons] at hd
      rcases hd with rfl | hd
      · omega
      · exact natDigits_digits ((n + 1) / 10) d hd
decreasing_by exact Nat.div_lt_self (Nat.succ_pos n) (by omega)

theorem natDigits_getLast : ∀ n : Nat, n ≠ 0 →
    (natDigits n).getLast? ≠ some 0
  | 0 => fun h => absurd rfl h
  | n + 1 => by
      intro _
      unfold natDigits
      by_cases h10 : (n + 1) / 10 = 0
      · rw [h10]
        simp only [natDigits, List.getLast?_singleton, ne_eq,
          Option.some.injEq]
        omega
      · have hrec := natDigits_getLast ((n + 1) / 10) h10
        have hne : natDigits ((n + 1) / 10) ≠ [] := by
          intro hc
          apply h10
          have := lv_natDigits ((n + 1) / 10)
          rw [hc] at this
          simpa [lv] using this.symm
        rwa [getLast?_cons_ne _ _ hne]
decreasing_by exact Nat.div_lt_self (Nat.succ_pos n) (by omega)

theorem WF_fromInt (n : Int) : WF (fromInt n) := by
  unfold fromInt
  by_cases h0 : n = 0
  · rw [if_pos h0]; exact WF_zeroO
  · rw [if_neg h0]
    have habs : n.natAbs ≠ 0 := Int.natAbs_ne_zero.mpr h0
    have hlast := natDigits_getLast n.natAbs habs
    refine WF_mk _ _ ?_ (natDigits_digits n.natAbs) ?_ ?_
    · intro hc
      apply habs
      have := lv_natDigits n.natAbs
      rw [hc] at this
      simpa [lv] using this.symm
    · intro hc; exact absurd hc hlast
    · intro hc
      exfalso
      apply hlast
      rw [hc]
      rfl

theorem value_fromInt (n : Int) : value (fromInt n) = n := by
  unfold fromInt
  by_cases h0 : n = 0
  · rw [if_pos h0, h0]; rfl
  · rw [if_neg h0]
    unfold value
    rcases Int.lt_or_lt_of_ne h0 with hneg | hpos
    · rw [if_neg (by simp; omega)]
      rw [lv_natDigits]
      omega
    · rw [if_pos (by simp; omega)]
      rw [lv_natDigits]
      omega

/-! ## Division engine -/

/-- The error channel of the embedded operations (§7 of the spec):
`DivideByZero`, `DomainError`, `RangeOverflow`, `InvalidFormat`; `nonterm`
additionally marks a configuration in which the C++ mutual recursion would
not terminate (proved unreachable from well-formed inputs on every path the
claims exercise). -/
inductive OErr where
  | divideByZero
  | domainError
  | rangeOverflow
  | invalidFormat
  | nonterm
deriving Repr, DecidableEq

/-- The inner `while (current_remainder >= abs_divisor)` loop of
`divide_and_remainder`: repeated subtraction, counting the digit.  The fuel
bounds the iterations (at most 10 are needed in reachable states). -/
def divDigit : Nat → OmniInt → OmniInt → Option (Nat × OmniInt)
  | 0, _, _ => none
  | f + 1, cr, dv =>
      if geO cr dv then
        match subFuel 8 cr dv with
        | none => none
        | some cr2 =>
          match divDigit f cr2 dv with
          | none => none
          | some (k, r) => some (k + 1, r)
      else some (0, cr)

/-- The digit sweep of `divide_and_remainder`, most-significant digit first:
`current_remainder = current_remainder * 10 + val[i]`, find the quotient
digit, recurse.  Returns the quotient digits MSB-first together with the
final partial remainder. -/
def divSweep : List Nat → OmniInt → OmniInt → Option (List Nat × OmniInt)
  | [], cr, _ => some ([], cr)
  | d :: ds, cr, dv =>
      match addFuel 8 (mulO cr (fromInt 10)) (fromInt (d : Int)) with
      | none => none
      | some cr2 =>
        match divDigit 12 cr2 dv with
        | none => none
        | some (q, cr3) =>
          match divSweep ds cr3 dv with
          | none => none
          | some (qs, r) => some (q :: qs, r)

/-- `OmniInt::divide_and_remainder`: validate the zero divisor before
anything else; short-circuit when `|dividend| < |divisor|`; otherwise run
the sweep on the dividend's digits, trim the quotient, set its sign to the
XOR of the operand signs canonicalizing zero, and compute the remainder as
`*this - quotient * divisor`. -/
def divRem (a b : OmniInt) : Except OErr (OmniInt × OmniInt) :=
  if b.val = [0] then .error .divideByZero
  else if ltO (absO a) (absO b) then .ok (⟨[0], true⟩, a)
  else
    match divSweep a.val.reverse zeroO (absO b) with
    | none => .error .nonterm
    | some (qs, _) =>
      match subFuel 8 a (mulO ⟨trimList qs.reverse,
          if trimList qs.reverse = [0] then true else a.pos == b.pos⟩ b) with
      | none => .error .nonterm
      | some r =>
        .ok (⟨trimList qs.reverse,
          if trimList qs.reverse = [0] then true else a.pos == b.pos⟩, r)

/-- `operator/`. -/
def divO (a b : OmniInt) : Except OErr OmniInt := (divRem a b).map Prod.fst

/-- `operator%`. -/
def modO (a b : OmniInt) : Except OErr OmniInt := (divRem a b).map Prod.snd

/-- `operator/=`, i.e. `*this = *this / other`: the quotient is computed on
copies first; on an exception the receiver keeps its old state (first
component) and the error propagates (second component). -/
def divAssign (a b : OmniInt) : OmniInt × Option OErr :=
  match divO a b with
  | .error e => (a, some e)
  | .ok q => (q, none)

/-- `operator%=`. -/
def modAssign (a b : OmniInt) : OmniInt × Option OErr :=
  match modO a b with
  | .error e => (a, some e)
  | .ok r => (r, none)

theorem natAbs_value (x : OmniInt) : (value x).natAbs = lv x.val := by
  unfold value
  cases x.pos <;> simp

theorem value_of_pos {x : OmniInt} (h : x.pos = true) :
    value x = (lv x.val : Int) := by
  unfold value
  rw [h]
  simp

theorem pos_of_value_nonneg {x : OmniInt} (hwf : WF x) (h : 0 ≤ value x) :
    x.pos = true := by
  cases hp : x.pos with
  | true => rfl
  | false =>
    have hv : value x = -(lv x.val : Int) := by
      unfold value; rw [hp]; simp
    rw [hv] at h
    have h0 : lv x.val = 0 := by omega
    have hpos := hwf.2.2.2 (hwf.lv_eq_zero_iff.mp h0)
    rw [hp] at hpos
    exact hpos

theorem pos_of_value_neg {x : OmniInt} (h : value x < 0) : x.pos = false := by
  cases hp : x.pos with
  | true =>
    have hv : value x = (lv x.val : Int) := value_of_pos hp
    rw [hv] at h
    omega
  | false => rfl

/-- Specification of the inner quotient-digit loop: with fuel above the true
digit it returns the quotient digit and the remainder of the partial
division. -/
theorem divDigit_spec : ∀ (f : Nat) (cr dv : OmniInt), WF cr → WF dv →
    cr.pos = true → dv.pos = true → 1 ≤ lv dv.val →
    lv cr.val / lv dv.val < f →
    ∃ r, divDigit f cr dv = some (lv cr.val / lv dv.val, r) ∧ WF r ∧
      r.pos = true ∧ lv r.val = lv cr.val % lv dv.val
  | 0, cr, dv => by
      intro _ _ _ _ _ hf
      exact absurd hf (Nat.not_lt_zero _)
  | f + 1, cr, dv => by
      intro hcr hdv hcp hdp hD hf
      by_cases hge : geO cr dv
      · have hgev : lv dv.val ≤ lv cr.val := by
          rw [geO_iff hcr hdv, value_of_pos hcp, value_of_pos hdp] at hge
          exact_mod_cast hge
        obtain ⟨cr2, hsub, hwf2, hv2⟩ := subFuel_spec 8 cr dv (by omega)
          hcr hdv (Or.inl (by
            intro hc
            rw [hdv.lv_eq_zero_iff.symm] at hc
            omega))
        have hv2' : value cr2 = (lv cr.val : Int) - lv dv.val := by
          rw [hv2, value_of_pos hcp, value_of_pos hdp]
        have hp2 : cr2.pos = true :=
          pos_of_value_nonneg hwf2 (by omega)
        have hlv2 : lv cr2.val = lv cr.val - lv dv.val := by
          have := value_of_pos hp2
          omega
        have hdec : lv cr2.val + lv dv.val = lv cr.val := by omega
        have hdiv : lv cr.val / lv dv.val = lv cr2.val / lv dv.val + 1 := by
          rw [← hdec, Nat.add_div_right _ (by omega)]
        have hmod : lv cr.val % lv dv.val = lv cr2.val % lv dv.val := by
          rw [← hdec, Nat.add_mod_right]
        obtain ⟨r, hrec, hwfr, hpr, hlvr⟩ := divDigit_spec f cr2 dv hwf2 hdv
          hp2 hdp hD (by omega)
        refine ⟨r, ?_, hwfr, hpr, by omega⟩
        rw [hdiv]
        unfold divDigit
        rw [if_pos hge, hsub]
        simp only [hrec]
      · have hlt : lv cr.val < lv dv.val := by
          by_contra hc
          exact hge (by
            rw [geO_iff hcr hdv, value_of_pos hcp, value_of_pos hdp]
            exact_mod_cast Nat.le_of_not_lt hc)
        have hq0 : lv cr.val / lv dv.val = 0 := Nat.div_eq_of_lt hlt
        have hm : lv cr.val % lv dv.val = lv cr.val := Nat.mod_eq_of_lt hlt
        refine ⟨cr, ?_, hcr, hcp, by omega⟩
        unfold divDigit
        rw [if_neg hge, hq0]

/-- Specification of the long-division digit sweep: the produced quotient
digits and final remainder decompose the swept value against the divisor
magnitude, the partial remainder staying below the divisor throughout. -/
theorem divSweep_spec : ∀ (ds : List Nat) (cr dv : OmniInt), WF cr → WF dv →
    cr.pos = true → dv.pos = true → 1 ≤ lv dv.val → (∀ d ∈ ds, d < 10) →
    lv cr.val < lv dv.val →
    ∃ qs r, divSweep ds cr dv = some (qs, r) ∧ qs.length = ds.length ∧
      (∀ q ∈ qs, q < 10) ∧ WF r ∧ r.pos = true ∧ lv r.val < lv dv.val ∧
      msbVal qs * lv dv.val + lv r.val =
        lv cr.val * 10 ^ ds.length + msbVal ds
  | [], cr, dv => by
      intro hcr _ hcp _ _ _ hlt
      refine ⟨[], cr, rfl, rfl, by simp, hcr, hcp, hlt, ?_⟩
      simp [msbVal]
  | d :: ds, cr, dv => by
      intro hcr hdv hcp hdp hD hds hlt
      have hd10 : d < 10 := hds d (List.mem_cons_self ..)
      -- cr2 = cr * 10 + d
      have hm_wf : WF (mulO cr (fromInt 10)) := WF_mulO cr (fromInt 10) hcr
        (WF_fromInt 10)
      have hm_v : value (mulO cr (fromInt 10)) = (lv cr.val : Int) * 10 := by
        rw [value_mulO cr (fromInt 10) hcr (WF_fromInt 10), value_fromInt,
          value_of_pos hcp]
      obtain ⟨cr2, hadd, hwf2, hv2⟩ := addFuel_spec 8 (mulO cr (fromInt 10))
        (fromInt (d : Int)) (by omega) hm_wf (WF_fromInt _)
        (Or.inr (pos_of_value_nonneg hm_wf (by rw [hm_v]; positivity)))
      have hv2' : value cr2 = (lv cr.val : Int) * 10 + d := by
        rw [hv2, hm_v, value_fromInt]
      have hp2 : cr2.pos = true := pos_of_value_nonneg hwf2 (by
        rw [hv2']; positivity)
      have hlv2 : lv cr2.val = lv cr.val * 10 + d := by
        have := value_of_pos hp2
        omega
      have hfit : lv cr2.val < 10 * lv dv.val := by omega
      have hfuel : lv cr2.val / lv dv.val < 12 := by
        have := (Nat.div_lt_iff_lt_mul (show 0 < lv dv.val by omega)).mpr
          (show lv cr2.val < 12 * lv dv.val by omega)
        exact this
      obtain ⟨cr3, hdig, hwf3, hp3, hlv3⟩ := divDigit_spec 12 cr2 dv hwf2 hdv
        hp2 hdp hD hfuel
      have hq10 : lv cr2.val / lv dv.val < 10 :=
        (Nat.div_lt_iff_lt_mul (show 0 < lv dv.val by omega)).mpr (by omega)
      have hlt3 : lv cr3.val < lv dv.val := by
        rw [hlv3]
        exact Nat.mod_lt _ (by omega)
      obtain ⟨qs, r, hrec, hlen, hqd, hwfr, hpr, hltr, heq⟩ :=
        divSweep_spec ds cr3 dv hwf3 hdv hp3 hdp hD
          (fun z hz => hds z (List.mem_cons_of_mem _ hz)) hlt3
      refine ⟨lv cr2.val / lv dv.val :: qs, r, ?_, by simp [hlen], ?_, hwfr,
        hpr, hltr, ?_⟩
      · unfold divSweep
        rw [hadd]
        simp only [hdig, hrec]
      · intro q hq
        rcases List.mem_cons.mp hq with rfl | hq
        · exact hq10
        · exact hqd q hq
      · -- the value decomposition
        rw [msbVal_cons, msbVal_cons, hlen]
        have hdm := Nat.div_add_mod (lv cr2.val) (lv dv.val)
        -- abbreviations
        generalize hQQ : lv cr2.val / lv dv.val = Q at *
        generalize hRR : lv cr2.val % lv dv.val = R at *
        calc (Q * 10 ^ ds.length + msbVal qs) * lv dv.val + lv r.val
            = (Q * lv dv.val) * 10 ^ ds.length +
              (msbVal qs * lv dv.val + lv r.val) := by ring
          _ = (Q * lv dv.val) * 10 ^ ds.length +
              (lv cr3.val * 10 ^ ds.length + msbVal ds) := by rw [heq]
          _ = (lv dv.val * Q + lv cr3.val) * 10 ^ ds.length + msbVal ds := by
              ring
          _ = lv cr2.val * 10 ^ ds.length + msbVal ds := by
              rw [hlv3, hdm]
          _ = (lv cr.val * 10 + d) * 10 ^ ds.length + msbVal ds := by
              rw [hlv2]
          _ = lv cr.val * 10 ^ (ds.length + 1) +
              (d * 10 ^ ds.length + msbVal ds) := by ring

/-- Full functional specification of `divide_and_remainder` on a nonzero
divisor: truncating division with the documented sign discipline. -/
theorem divRem_spec (a b : OmniInt) (ha : WF a) (hb : WF b)
    (hbz : b.val ≠ [0]) :
    ∃ q r, divRem a b = .ok (q, r) ∧ WF q ∧ WF r ∧
      value q * value b + value r = value a ∧
      (value r).natAbs < (value b).natAbs ∧
      q.pos = (if q.val = [0] then true else a.pos == b.pos) ∧
      r.pos = (if r.val = [0] then true else a.pos) := by
  have hD : 1 ≤ lv b.val := by
    rcases Nat.eq_zero_or_pos (lv b.val) with h0 | h0
    · exact absurd (hb.lv_eq_zero_iff.mp h0) hbz
    · exact h0
  have hvb : value b = if b.pos then (lv b.val : Int) else -(lv b.val : Int) :=
    rfl
  have hva : value a = if a.pos then (lv a.val : Int) else -(lv a.val : Int) :=
    rfl
  by_cases hsc : ltO (absO a) (absO b)
  · -- |dividend| < |divisor|: quotient 0, remainder = dividend
    have hAD : lv a.val < lv b.val := by
      rw [ltO_iff (WF_absO a ha) (WF_absO b hb), value_absO, value_absO] at hsc
      exact_mod_cast hsc
    refine ⟨⟨[0], true⟩, a, ?_, WF_zeroO, ha, ?_, ?_, by simp, ?_⟩
    · unfold divRem
      rw [if_neg hbz, if_pos hsc]
    · have hq0 : value (⟨[0], true⟩ : OmniInt) = 0 := rfl
      rw [hq0]; ring
    · rw [natAbs_value, natAbs_value]; exact hAD
    · by_cases h0 : a.val = [0]
      · rw [if_pos h0]; exact ha.2.2.2 h0
      · rw [if_neg h0]
  · -- long division sweep
    have hAD : lv b.val ≤ lv a.val := by
      rw [ltO_iff (WF_absO a ha) (WF_absO b hb), value_absO, value_absO] at hsc
      omega
    obtain ⟨qs, r0, hsweep, hlen, hqd, hwfr0, hpr0, hltr0, heq⟩ :=
      divSweep_spec a.val.reverse zeroO (absO b) WF_zeroO (WF_absO b hb) rfl
        rfl hD (fun z hz => ha.2.1 z (List.mem_reverse.mp hz)) hD
    have hmsb : msbVal a.val.reverse = lv a.val := by
      have h2 := lv_reverse a.val.reverse
      rw [List.reverse_reverse] at h2
      exact h2.symm
    have hQR : msbVal qs * lv b.val + lv r0.val = lv a.val := by
      have h0 : lv zeroO.val = 0 := rfl
      rw [h0, hmsb] at heq
      simpa using heq
    have hR : lv r0.val < lv b.val := hltr0
    -- the trimmed quotient
    have hq_lv : lv (trimList qs.reverse) = msbVal qs := by
      rw [lv_trimList, lv_reverse]
    have hQ1 : 1 ≤ msbVal qs := by
      by_contra hc
      have hQ0 : msbVal qs = 0 := by omega
      rw [hQ0] at hQR
      simp at hQR
      omega
    have hqv0 : trimList qs.reverse ≠ [0] := by
      intro hc
      have : lv (trimList qs.reverse) = 0 := by rw [hc]; rfl
      omega
    have hlen1 : 1 ≤ qs.length := by
      have h1 : 1 ≤ a.val.length := List.length_pos.mpr ha.1
      rw [hlen, List.length_reverse]
      exact h1
    have hq_wf : WF ⟨trimList qs.reverse,
        if trimList qs.reverse = [0] then true else a.pos == b.pos⟩ := by
      refine WF_mk _ _ ?_ ?_ (trimList_getLast _) ?_
      · exact trimList_ne_nil _ (by
          intro hc
          rw [← List.length_eq_zero] at hc
          rw [List.length_reverse] at hc
          omega)
      · exact trimList_digits _ (fun z hz => hqd z (List.mem_reverse.mp hz))
      · intro h0
        rw [if_pos h0]
    have hq_v : value ⟨trimList qs.reverse,
        if trimList qs.reverse = [0] then true else a.pos == b.pos⟩ =
        if (a.pos == b.pos) then (msbVal qs : Int) else -(msbVal qs : Int) := by
      unfold value
      rw [if_neg hqv0]
      simp only [hq_lv]
    -- the product quotient * divisor
    have hm_wf : WF (mulO ⟨trimList qs.reverse,
        if trimList qs.reverse = [0] then true else a.pos == b.pos⟩ b) :=
      WF_mulO _ b hq_wf hb
    have hm_v : value (mulO ⟨trimList qs.reverse,
        if trimList qs.reverse = [0] then true else a.pos == b.pos⟩ b) =
        (if a.pos then (1 : Int) else -1) *
          ((msbVal qs : Int) * (lv b.val : Int)) := by
      rw [value_mulO _ b hq_wf hb, hq_v, hvb]
      cases hap : a.pos <;> cases hbp : b.pos <;> simp <;> ring
    have hm_ne : (mulO ⟨trimList qs.reverse,
        if trimList qs.reverse = [0] then true else a.pos == b.pos⟩ b).val ≠
        [0] := by
      intro hc
      have h0 : value (mulO ⟨trimList qs.reverse,
          if trimList qs.reverse = [0] then true else a.pos == b.pos⟩ b) =
          0 := by
        rw [value_eq_zero_iff_lv, hc]
        rfl
      rw [hm_v] at h0
      have h1 : (msbVal qs : Int) * (lv b.val : Int) ≠ 0 := by
        have : (0 : Int) < (msbVal qs : Int) * (lv b.val : Int) := by
          apply mul_pos <;> exact_mod_cast (by omega : (0 : Nat) < _)
        omega
      cases a.pos <;> simp at h0 <;> omega
    obtain ⟨r, hsub, hwf_r, hv_r⟩ := subFuel_spec 8 a _ (by omega) ha hm_wf
      (Or.inl hm_ne)
    -- the remainder's value
    have hQRi : (lv a.val : Int) =
        (msbVal qs : Int) * (lv b.val : Int) + (lv r0.val : Int) := by
      exact_mod_cast hQR.symm
    have hv_r2 : value r = (if a.pos then (1 : Int) else -1) *
        (lv r0.val : Int) := by
      rw [hv_r, hm_v, hva]
      generalize hX : (msbVal qs : Int) * (lv b.val : Int) = X at hQRi ⊢
      cases a.pos <;> simp <;> omega
    refine ⟨_, r, ?_, hq_wf, hwf_r, ?_, ?_, ?_, ?_⟩
    · unfold divRem
      rw [if_neg hbz, if_neg hsc]
      simp only [hsweep, hsub]
    · -- (a / b) * b + (a % b) = a
      rw [hv_r, value_mulO _ b hq_wf hb]
      ring
    · -- |a % b| < |b|
      have h1 : (value r).natAbs = lv r0.val := by
        rw [hv_r2]
        cases a.pos <;> simp
      rw [h1, natAbs_value]
      exact hR
    · rfl
    · -- remainder sign follows the dividend
      by_cases hR0 : lv r0.val = 0
      · have hvr0 : value r = 0 := by rw [hv_r2, hR0]; simp
        have hrval : r.val = [0] :=
          hwf_r.lv_eq_zero_iff.mp ((value_eq_zero_iff_lv r).mp hvr0)
        rw [if_pos hrval]
        exact hwf_r.2.2.2 hrval
      · have hrval : r.val ≠ [0] := by
          intro hc
          have : value r = 0 := by
            rw [value_eq_zero_iff_lv, hc]
            rfl
          rw [hv_r2] at this
          cases a.pos <;> simp at this <;> omega
        rw [if_neg hrval]
        cases hap : a.pos with
        | true =>
          apply pos_of_value_nonneg hwf_r
          rw [hv_r2, hap]
          simp
        | false =>
          apply pos_of_value_neg
          rw [hv_r2, hap]
          simp
          omega

/-- `operator/` on positive well-formed operands computes the magnitude
quotient. -/
theorem divO_pos_spec (a b : OmniInt) (ha : WF a) (hb : WF b)
    (hap : a.pos = true) (hbp : b.pos = true) (hbz : b.val ≠ [0]) :
    ∃ q, divO a b = .ok q ∧ WF q ∧ q.pos = true ∧
      lv q.val = lv a.val / lv b.val := by
  have hD : 1 ≤ lv b.val := by
    rcases Nat.eq_zero_or_pos (lv b.val) with h0 | h0
    · exact absurd (hb.lv_eq_zero_iff.mp h0) hbz
    · exact h0
  obtain ⟨q, r, hok, hwq, hwr, hid, habs, hqp, hrp⟩ := divRem_spec a b ha hb
    hbz
  have hqpos : q.pos = true := by
    rw [hqp, hap, hbp]
    split <;> rfl
  have hrpos : r.pos = true := by
    rw [hrp, hap]
    split <;> rfl
  refine ⟨q, ?_, hwq, hqpos, ?_⟩
  · unfold divO
    rw [hok]
    rfl
  · have hlin : lv q.val * lv b.val + lv r.val = lv a.val := by
      rw [value_of_pos hqpos, value_of_pos hbp, value_of_pos hrpos,
        value_of_pos hap] at hid
      exact_mod_cast hid
    have hrlt : lv r.val < lv b.val := by
      rw [natAbs_value, natAbs_value] at habs
      exact habs
    have : lv a.val / lv b.val = lv q.val := by
      rw [← hlin, Nat.mul_comm (lv q.val),
        Nat.mul_add_div (by omega : 0 < lv b.val),
        Nat.div_eq_of_lt hrlt]
      omega
    omega

/-! ## Integer square root -/

/-- One Newton step `(x + n / x) / 2` of the C++ `sqrt`, computed through
the `OmniInt` operator surface (`operator/`, `operator+`, `operator/`). -/
def sqrtStep (n x : OmniInt) : Option OmniInt :=
  match divO n x with
  | .error _ => none
  | .ok q =>
    match addFuel 8 x q with
    | none => none
    | some s =>
      match divO s (fromInt 2) with
      | .error _ => none
      | .ok x2 => some x2

/-- The `do { last_x = x; x = (x + n/x)/2; } while (x < last_x)` loop of the
C++ `sqrt`: recurse while the iterate strictly decreases; the result is the
last strictly decreasing value (`x = last_x` after the loop). -/
def sqrtLoop : Nat → OmniInt → OmniInt → Option OmniInt
  | 0, _, _ => none
  | f + 1, n, x =>
    match sqrtStep n x with
    | none => none
    | some x2 => if ltO x2 x then sqrtLoop f n x2 else some x

/-- The free function `sqrt` of `OmniInt.h`: `DomainError` on negative
input, `0` for zero, otherwise the seed `10^((d+1)/2)` (the string
`"1" ++ "0"*e` parsed into digits), the monotone Newton descent, and the
final `if (x * x > n) x -= 1` correction.  The loop fuel `lv x0 + 1`
strictly dominates the decreasing iterate, so it never runs out. -/
def sqrtO (n : OmniInt) : Except OErr OmniInt :=
  if ltO n zeroO then .error .domainError
  else if eqO n zeroO then .ok zeroO
  else
    match sqrtLoop
        (lv (List.replicate ((n.val.length + 1) / 2) 0 ++ [1]) + 1) n
        ⟨List.replicate ((n.val.length + 1) / 2) 0 ++ [1], true⟩ with
    | none => .error .nonterm
    | some cand =>
      if gtO (mulO cand cand) n then
        match subFuel 8 cand (fromInt 1) with
        | none => .error .nonterm
        | some res => .ok res
      else .ok cand

theorem lv_seed (e : Nat) : lv (List.replicate e 0 ++ [1]) = 10 ^ e := by
  rw [lv_append, lv_replicate_zero, List.length_replicate]
  simp [lv]

theorem WF_seed (e : Nat) : WF ⟨List.replicate e 0 ++ [1], true⟩ := by
  refine WF_mk _ _ (by simp) ?_ ?_ (fun _ => rfl)
  · intro d hd
    rcases List.mem_append.mp hd with h | h
    · have := List.eq_of_mem_replicate h
      omega
    · simp at h
      omega
  · intro hlast
    rw [List.getLast?_concat] at hlast
    simp at hlast

/-- The floor-arithmetic arithmetic-mean/geometric-mean bound: every Newton
iterate from a positive point dominates the integer square root. -/
theorem newton_ge_sqrt (N x : Nat) (hx : 1 ≤ x) :
    Nat.sqrt N ≤ (x + N / x) / 2 := by
  have h1 : Nat.sqrt N * Nat.sqrt N ≤ N := Nat.sqrt_le N
  have hdm := Nat.div_add_mod N x
  have hmod : N % x < x := Nat.mod_lt _ (by omega)
  have h2 : N < x * (N / x) + x := by omega
  have key : 2 * Nat.sqrt N ≤ x + N / x := by
    zify at h1 h2 ⊢
    nlinarith [sq_nonneg ((x : Int) - Nat.sqrt N)]
  rw [Nat.le_div_iff_mul_le (show 0 < 2 by omega)]
  omega

/-- Specification of one Newton step on positive well-formed values. -/
theorem sqrtStep_spec (n x : OmniInt) (hn : WF n) (hx : WF x)
    (hnp : n.pos = true) (hxp : x.pos = true) (hx1 : 1 ≤ lv x.val) :
    ∃ x2, sqrtStep n x = some x2 ∧ WF x2 ∧ x2.pos = true ∧
      lv x2.val = (lv x.val + lv n.val / lv x.val) / 2 := by
  have hxz : x.val ≠ [0] := by
    intro hc
    have : lv x.val = 0 := by rw [hc]; rfl
    omega
  obtain ⟨q, hdiv, hwq, hqp, hqlv⟩ := divO_pos_spec n x hn hx hnp hxp hxz
  obtain ⟨s, hadd, hws, hvs⟩ := addFuel_spec 8 x q (by omega) hx hwq
    (Or.inr hxp)
  have hsp : s.pos = true := pos_of_value_nonneg hws (by
    rw [hvs, value_of_pos hxp, value_of_pos hqp]
    positivity)
  have hslv : lv s.val = lv x.val + lv q.val := by
    have h1 := value_of_pos hsp
    have h2 := value_of_pos hxp
    have h3 := value_of_pos hqp
    omega
  have h2p : (fromInt 2).pos = true := by simp [fromInt]
  have h2wf : WF (fromInt 2) := WF_fromInt 2
  have h2lv : lv (fromInt 2).val = 2 := by
    have := value_fromInt 2
    rw [value_of_pos h2p] at this
    exact_mod_cast this
  have h2z : (fromInt 2).val ≠ [0] := by
    intro hc
    rw [hc] at h2lv
    simp [lv] at h2lv
  obtain ⟨x2, hdiv2, hwx2, hx2p, hx2lv⟩ := divO_pos_spec s (fromInt 2) hws
    h2wf hsp h2p h2z
  refine ⟨x2, ?_, hwx2, hx2p, ?_⟩
  · unfold sqrtStep
    rw [hdiv]
    simp only [hadd, hdiv2]
  · rw [hx2lv, hslv, hqlv, h2lv]

/-- The Newton descent returns exactly the integer square root, given a seed
at or above it and fuel dominating the seed. -/
theorem sqrtLoop_spec : ∀ (f : Nat) (n x : OmniInt), WF n → WF x →
    n.pos = true → x.pos = true → 1 ≤ lv n.val → 1 ≤ lv x.val →
    Nat.sqrt (lv n.val) ≤ lv x.val → lv x.val < f →
    ∃ res, sqrtLoop f n x = some res ∧ WF res ∧ res.pos = true ∧
      lv res.val = Nat.sqrt (lv n.val)
  | 0, n, x => by
      intro _ _ _ _ _ _ _ hf
      exact absurd hf (Nat.not_lt_zero _)
  | f + 1, n, x => by
      intro hn hx hnp hxp hn1 hx1 hseed hf
      obtain ⟨x2, hstep, hwx2, hx2p, hx2lv⟩ := sqrtStep_spec n x hn hx hnp
        hxp hx1
      have hs1 : 1 ≤ Nat.sqrt (lv n.val) := Nat.sqrt_pos.mpr (by omega)
      have hx2ge : Nat.sqrt (lv n.val) ≤ lv x2.val := by
        rw [hx2lv]
        exact newton_ge_sqrt (lv n.val) (lv x.val) hx1
      by_cases hlt : ltO x2 x
      · have hlt' : lv x2.val < lv x.val := by
          rw [ltO_iff hwx2 hx, value_of_pos hx2p, value_of_pos hxp] at hlt
          exact_mod_cast hlt
        obtain ⟨res, hrec, hwres, hresp, hreslv⟩ := sqrtLoop_spec f n x2 hn
          hwx2 hnp hx2p hn1 (by omega) hx2ge (by omega)
        refine ⟨res, ?_, hwres, hresp, hreslv⟩
        unfold sqrtLoop
        rw [hstep]
        simp only [if_pos hlt, hrec]
      · -- the iterate no longer decreases: x is the root
        have hge : lv x.val ≤ lv x2.val := by
          by_contra hc
          exact hlt (by
            rw [ltO_iff hwx2 hx, value_of_pos hx2p, value_of_pos hxp]
            exact_mod_cast Nat.lt_of_not_le hc)
        have hsq : lv x.val * lv x.val ≤ lv n.val := by
          rw [hx2lv] at hge
          have h2 : lv x.val * 2 ≤ lv x.val + lv n.val / lv x.val :=
            (Nat.le_div_iff_mul_le (show 0 < 2 by omega)).mp hge
          have h3 : lv x.val ≤ lv n.val / lv x.val := by omega
          exact (Nat.le_div_iff_mul_le (show 0 < lv x.val by omega)).mp h3
        have hle : lv x.val ≤ Nat.sqrt (lv n.val) := Nat.le_sqrt.mpr hsq
        refine ⟨x, ?_, hx, hxp, by omega⟩
        unfold sqrtLoop
        rw [hstep]
        simp only [if_neg hlt]

/-- `sqrt` on a non-negative input returns exactly the integer square
root. -/
theorem sqrtO_spec (n : OmniInt) (hn : WF n) (hpos : 0 ≤ value n) :
    ∃ res, sqrtO n = .ok res ∧ WF res ∧ res.pos = true ∧
      lv res.val = Nat.sqrt (lv n.val) := by
  have hnlt : ¬ ltO n zeroO := by
    rw [ltO_iff hn WF_zeroO, value_zeroO]
    omega
  by_cases h0 : value n = 0
  · have hval0 : n.val = [0] := hn.lv_eq_zero_iff.mp
      ((value_eq_zero_iff_lv n).mp h0)
    have heq : eqO n zeroO := by
      rw [eqO_iff hn WF_zeroO, value_zeroO]
      exact h0
    refine ⟨zeroO, ?_, WF_zeroO, rfl, ?_⟩
    · unfold sqrtO
      rw [if_neg hnlt, if_pos heq]
    · have h1 : lv n.val = 0 := (value_eq_zero_iff_lv n).mp h0
      rw [h1]
      rfl
  · have hneq : ¬ eqO n zeroO := by
      rw [eqO_iff hn WF_zeroO, value_zeroO]
      exact h0
    have hnp : n.pos = true := pos_of_value_nonneg hn hpos
    have hn1 : 1 ≤ lv n.val := by
      rcases Nat.eq_zero_or_pos (lv n.val) with hz | hz
      · exact absurd ((value_eq_zero_iff_lv n).mpr hz) h0
      · exact hz
    have hlen1 : 1 ≤ n.val.length := List.length_pos.mpr hn.1
    have hseedlv : lv (List.replicate ((n.val.length + 1) / 2) 0 ++ [1]) =
        10 ^ ((n.val.length + 1) / 2) := lv_seed _
    have hseedge : Nat.sqrt (lv n.val) ≤
        lv (List.replicate ((n.val.length + 1) / 2) 0 ++ [1]) := by
      rw [hseedlv]
      have hle : Nat.sqrt (lv n.val) <  10 ^ ((n.val.length + 1) / 2) := by
        rw [Nat.sqrt_lt]
        calc lv n.val < 10 ^ n.val.length := lv_lt_pow n.val hn.2.1
          _ ≤ 10 ^ ((n.val.length + 1) / 2) * 10 ^ ((n.val.length + 1) / 2) := by
              rw [← pow_add]
              exact Nat.pow_le_pow_right (by omega) (by omega)
      omega
    obtain ⟨cand, hloop, hwc, hcp, hclv⟩ := sqrtLoop_spec
      (lv (List.replicate ((n.val.length + 1) / 2) 0 ++ [1]) + 1) n
      ⟨List.replicate ((n.val.length + 1) / 2) 0 ++ [1], true⟩ hn
      (WF_seed _) hnp rfl hn1
      (by rw [hseedlv]; exact Nat.pos_pow_of_pos _ (by omega))
      hseedge (by
        show lv (List.replicate ((n.val.length + 1) / 2) 0 ++ [1]) <
          lv (List.replicate ((n.val.length + 1) / 2) 0 ++ [1]) + 1
        omega)
    have hsq_le : lv cand.val * lv cand.val ≤ lv n.val := by
      rw [hclv]
      exact Nat.sqrt_le _
    have hnot_gt : ¬ gtO (mulO cand cand) n := by
      rw [gtO_iff (WF_mulO cand cand hwc hwc) hn,
        value_mulO cand cand hwc hwc, value_of_pos hnp, value_of_pos hcp]
      push_cast
      exact_mod_cast Nat.not_lt.mpr hsq_le
    refine ⟨cand, ?_, hwc, hcp, hclv⟩
    unfold sqrtO
    rw [if_neg hnlt, if_neg hneq]
    simp only [hloop, if_neg hnot_gt]

/-- `sqrt` on a negative input raises `DomainError`. -/
theorem sqrtO_neg (n : OmniInt) (hn : WF n) (hneg : value n < 0) :
    sqrtO n = .error .domainError := by
  have hlt : ltO n zeroO := by
    rw [ltO_iff hn WF_zeroO, value_zeroO]
    exact hneg
  unfold sqrtO
  rw [if_pos hlt]

/-! ## Reference multiplication (deferred-carry schoolbook, from the spec's
words, to be compared with the implementation for C5) -/

/-- Pointwise carry-free addition of a row into the front of a buffer,
keeping the buffer's length. -/
def addInto : List Nat → List Nat → List Nat
  | buf, [] => buf
  | [], _ => []
  | d :: buf, e :: adds => (d + e) :: addInto buf adds

/-- Follows the spec's words (§4.4): accumulate every pairwise digit product
`a[i]*b[j]` into `result[i+j]` without any carry propagation — row `i` is
`a_i * b` added at offset `i` (the offset realized by consing the skipped
cell). -/
def accRows (bv : List Nat) : List Nat → List Nat → List Nat
  | [], buf => buf
  | a0 :: arest, buf =>
      match addInto buf (bv.map (fun b => a0 * b)) with
      | [] => []
      | d :: rest => d :: accRows bv arest rest

/-- Follows the spec's words: the single left-to-right carry-normalization
pass over the accumulated buffer. -/
def carryPass : List Nat → Nat → List Nat
  | [], _ => []
  | d :: l, c => (d + c) % 10 :: carryPass l ((d + c) / 10)

/-- Follows the spec's words (the reference algorithm of C5): allocate a
buffer of length `len(a)+len(b)`, accumulate all pairwise products without
carries, run one carry pass, and apply the same zero short-circuit, XOR
sign, and trim as the implementation. -/
def specMul (a b : OmniInt) : OmniInt :=
  if a.val = [0] ∨ b.val = [0] then ⟨[0], true⟩
  else
    ⟨trimList (carryPass (accRows b.val a.val
        (List.replicate (a.val.length + b.val.length) 0)) 0),
      a.pos == b.pos⟩

theorem addInto_length : ∀ (buf adds : List Nat),
    adds.length ≤ buf.length → (addInto buf adds).length = buf.length
  | buf, [] => fun _ => by
      cases buf <;> rfl
  | [], e :: adds => by
      intro h
      simp at h
  | d :: buf, e :: adds => by
      intro h
      simp only [List.length_cons, Nat.add_le_add_iff_right] at h
      simp only [addInto, List.length_cons]
      rw [addInto_length buf adds h]

theorem addInto_lv : ∀ (buf adds : List Nat),
    adds.length ≤ buf.length → lv (addInto buf adds) = lv buf + lv adds
  | buf, [] => fun _ => by
      cases buf <;> simp [addInto, lv]
  | [], e :: adds => by
      intro h
      simp at h
  | d :: buf, e :: adds => by
      intro h
      simp only [List.length_cons, Nat.add_le_add_iff_right] at h
      simp only [addInto, lv_cons]
      rw [addInto_lv buf adds h]
      ring

theorem lv_map_mul (a0 : Nat) (bv : List Nat) :
    lv (bv.map (fun b => a0 * b)) = a0 * lv bv := by
  induction bv with
  | nil => simp [lv]
  | cons e t ih =>
    simp only [List.map_cons, lv_cons, ih]
    ring

theorem accRows_length (bv : List Nat) : ∀ (av buf : List Nat),
    av.length + bv.length ≤ buf.length →
    (accRows bv av buf).length = buf.length
  | [], buf => fun _ => rfl
  | a0 :: arest, buf => by
      intro h
      have hmap : (bv.map (fun b => a0 * b)).length ≤ buf.length := by
        rw [List.length_map]
        simp only [List.length_cons] at h
        omega
      have hlen := addInto_length buf (bv.map (fun b => a0 * b)) hmap
      unfold accRows
      match hrow : addInto buf (bv.map (fun b => a0 * b)) with
      | [] =>
        rw [hrow] at hlen
        simp only [List.length_nil] at hlen ⊢
        omega
      | d :: rest =>
        rw [hrow] at hlen
        simp only [List.length_cons] at hlen ⊢
        rw [accRows_length bv arest rest (by
          simp only [List.length_cons] at h
          omega)]
        omega

theorem accRows_lv (bv : List Nat) : ∀ (av buf : List Nat),
    av.length + bv.length ≤ buf.length →
    lv (accRows bv av buf) = lv buf + lv av * lv bv
  | [], buf => fun _ => by simp [accRows, lv]
  | a0 :: arest, buf => by
      intro h
      simp only [List.length_cons] at h
      have hmap : (bv.map (fun b => a0 * b)).length ≤ buf.length := by
        rw [List.length_map]
        omega
      have hlen := addInto_length buf (bv.map (fun b => a0 * b)) hmap
      have hlv := addInto_lv buf (bv.map (fun b => a0 * b)) hmap
      rw [lv_map_mul] at hlv
      have hsplit : lv (a0 :: arest) * lv bv =
          a0 * lv bv + 10 * (lv arest * lv bv) := by
        rw [lv_cons]; ring
      rw [hsplit]
      unfold accRows
      match hrow : addInto buf (bv.map (fun b => a0 * b)) with
      | [] =>
        rw [hrow] at hlen
        simp only [List.length_nil] at hlen
        omega
      | d :: rest =>
        rw [hrow] at hlen hlv
        simp only [List.length_cons] at hlen
        simp only [lv_cons] at hlv
        have hrec := accRows_lv bv arest rest (by omega)
        simp only [lv_cons]
        rw [hrec]
        generalize lv arest * lv bv = Y at *
        generalize a0 * lv bv = X at *
        omega

theorem carryPass_length : ∀ (l : List Nat) (c : Nat),
    (carryPass l c).length = l.length
  | [], _ => rfl
  | d :: l, c => by
      simp only [carryPass, List.length_cons]
      rw [carryPass_length l _]

theorem carryPass_digits : ∀ (l : List Nat) (c : Nat),
    ∀ d ∈ carryPass l c, d < 10
  | [], _ => by intro d hd; simp [carryPass] at hd
  | e :: l, c => by
      intro d hd
      simp only [carryPass, List.mem_cons] at hd
      rcases hd with rfl | hd
      · omega
      · exact carryPass_digits l _ d hd

theorem carryPass_lv : ∀ (l : List Nat) (c : Nat),
    lv l + c < 10 ^ l.length → lv (carryPass l c) = lv l + c
  | [], c => by
      intro h
      simp only [lv_nil, List.length_nil, pow_zero] at h
      simp [carryPass, lv]
      omega
  | d :: l, c => by
      intro h
      simp only [lv_cons, List.length_cons] at h ⊢
      have h10 : 10 ^ (l.length + 1) = 10 * 10 ^ l.length :=
        pow_succ' 10 l.length
      have hrec := carryPass_lv l ((d + c) / 10) (by omega)
      simp only [carryPass, lv_cons]
      rw [hrec]
      omega

/-- The product magnitude fits the allocated buffer. -/
theorem lv_mul_bound (a b : OmniInt) (ha : WF a) (hb : WF b) :
    lv a.val * lv b.val < 10 ^ (a.val.length + b.val.length) := by
  have h1 := lv_lt_pow a.val ha.2.1
  have h2 := lv_lt_pow b.val hb.2.1
  calc lv a.val * lv b.val ≤ lv a.val * 10 ^ b.val.length :=
        Nat.mul_le_mul_left _ (le_of_lt h2)
    _ < 10 ^ a.val.length * 10 ^ b.val.length :=
        mul_lt_mul_of_pos_right h1 (Nat.pos_pow_of_pos _ (by omega))
    _ = 10 ^ (a.val.length + b.val.length) := (pow_add 10 _ _).symm

/-- The implementation's interleaved-carry buffer and the spec's
deferred-carry buffer agree digit for digit: both are length
`len(a)+len(b)` base-10 representations of the same product. -/
theorem mulO_eq_specMul (a b : OmniInt) (ha : WF a) (hb : WF b) :
    mulO a b = specMul a b := by
  unfold mulO specMul
  by_cases hz : a.val = [0] ∨ b.val = [0]
  · rw [if_pos hz, if_pos hz]
  · rw [if_neg hz, if_neg hz]
    have hbound := lv_mul_bound a b ha hb
    have hrep_len : (List.replicate (a.val.length + b.val.length)
        (0 : Nat)).length = a.val.length + b.val.length :=
      List.length_replicate ..
    have hlen_cond : a.val.length + b.val.length ≤
        (List.replicate (a.val.length + b.val.length) (0 : Nat)).length := by
      rw [hrep_len]
    -- implementation buffer
    have himpl_len : (mulAcc b.val a.val
        (List.replicate (a.val.length + b.val.length) 0)).length =
        a.val.length + b.val.length := by
      rw [mulAcc_length, hrep_len]
    have himpl_lv := mulO_buffer_lv a b ha hb
    have himpl_dig : ∀ d ∈ mulAcc b.val a.val
        (List.replicate (a.val.length + b.val.length) 0), d < 10 :=
      mulAcc_digits b.val a.val _ (fun d hd => by
        have := List.eq_of_mem_replicate hd
        omega)
    -- reference buffer
    have hacc_len : (accRows b.val a.val
        (List.replicate (a.val.length + b.val.length) 0)).length =
        a.val.length + b.val.length := by
      rw [accRows_length b.val a.val _ hlen_cond, hrep_len]
    have hacc_lv : lv (accRows b.val a.val
        (List.replicate (a.val.length + b.val.length) 0)) =
        lv a.val * lv b.val := by
      rw [accRows_lv b.val a.val _ hlen_cond, lv_replicate_zero]
      omega
    have hspec_len : (carryPass (accRows b.val a.val
        (List.replicate (a.val.length + b.val.length) 0)) 0).length =
        a.val.length + b.val.length := by
      rw [carryPass_length, hacc_len]
    have hspec_lv : lv (carryPass (accRows b.val a.val
        (List.replicate (a.val.length + b.val.length) 0)) 0) =
        lv a.val * lv b.val := by
      rw [carryPass_lv _ 0 (by
        rw [hacc_lv, hacc_len]
        omega)]
      omega
    have hbufeq : mulAcc b.val a.val
        (List.replicate (a.val.length + b.val.length) 0) =
        carryPass (accRows b.val a.val
          (List.replicate (a.val.length + b.val.length) 0)) 0 :=
      lv_inj _ _ (by rw [himpl_len, hspec_len]) himpl_dig
        (carryPass_digits _ _) (by rw [himpl_lv, hspec_lv])
    rw [hbufeq]

/-! ## Greatest common divisor -/

/-- Modelled from the spec: the repository's test harness calls a free
function `gcd(a, b)` whose implementation is not among the source files
under version control here; §4.6 of the spec defines it as the classic
Euclidean algorithm on absolute values — "repeatedly replace `(a,b)` with
`(b, a mod b)` until `b` is zero; return `a`".  This is that loop. -/
def gcdNat (a b : Nat) : Nat :=
  if h : b = 0 then a else gcdNat b (a % b)
decreasing_by exact Nat.mod_lt _ (Nat.pos_of_ne_zero h)

/-- Modelled from the spec: `gcd` on `OmniInt`s runs the Euclidean loop on
the absolute values, so the result is non-negative regardless of input
signs. -/
def gcdO (a b : OmniInt) : OmniInt :=
  fromInt ((gcdNat (value a).natAbs (value b).natAbs : Nat) : Int)

theorem gcdNat_eq_gcd : ∀ a b : Nat, gcdNat a b = Nat.gcd a b
  | a, b => by
      unfold gcdNat
      by_cases h0 : b = 0
      · rw [dif_pos h0, h0, Nat.gcd_zero_right]
      · rw [dif_neg h0, gcdNat_eq_gcd b (a % b)]
        rw [Nat.gcd_comm b (a % b), ← Nat.gcd_rec b a, Nat.gcd_comm]
termination_by a b => b
decreasing_by exact Nat.mod_lt _ (Nat.pos_of_ne_zero h0)

theorem gcdO_spec (a b : OmniInt) :
    WF (gcdO a b) ∧ 0 ≤ value (gcdO a b) ∧
      value (gcdO a b) = Int.gcd (value a) (value b) := by
  unfold gcdO
  refine ⟨WF_fromInt _, ?_, ?_⟩
  · rw [value_fromInt]
    positivity
  · rw [value_fromInt, gcdNat_eq_gcd]
    rfl

theorem gcdO_zero_zero : gcdO zeroO zeroO = zeroO := by
  unfold gcdO
  have h : gcdNat (value zeroO).natAbs (value zeroO).natAbs = 0 := by
    rw [gcdNat_eq_gcd]
    rfl
  rw [h]
  rfl

/-! ## String conversion -/

/-- The character printed for a digit (the C++ streams the digit `int` into
a string stream, producing its ASCII character). -/
def digitChar (d : Nat) : Char := Char.ofNat (48 + d)

/-- The digit test of the string constructor
(`s[i] < '0' || s[i] > '9'` negated). -/
def isDigitC (c : Char) : Bool := decide ('0' ≤ c) && decide (c ≤ '9')

/-- The digit value of a character (`s[i] - '0'`). -/
def charDigit (c : Char) : Nat := c.toNat - 48

/-- `OmniInt::toString`: `"0"` for an empty or canonical-zero magnitude,
otherwise an optional minus sign and the digits most-significant first.
Strings are modelled as character lists. -/
def toStringO (x : OmniInt) : List Char :=
  if x.val = [] ∨ x.val = [0] then ['0']
  else (if x.pos then [] else ['-']) ++ (x.val.reverse.map digitChar)

/-- The sign test at the start of the string constructor: `(pos, rest)`. -/
def splitSign (s : List Char) : Bool × List Char :=
  match s with
  | [] => (true, [])
  | c :: t =>
      if c = '-' then (false, t)
      else if c = '+' then (true, t)
      else (true, c :: t)

/-- The digit-reading loop of the string constructor (every remaining
character must be a digit; digits are stored least-significant first), with
the final `trim` and zero-sign canonicalization. -/
def parseDigits (t : List Char) (p : Bool) : Except OErr OmniInt :=
  if t.all isDigitC then
    .ok ⟨trimList ((t.map charDigit).reverse),
      if trimList ((t.map charDigit).reverse) = [0] then true else p⟩
  else .error .invalidFormat

/-- `OmniInt::OmniInt(const std::string&)`: reject an empty or sign-only
string, split off the optional sign, then read the digits. -/
def parseO (s : List Char) : Except OErr OmniInt :=
  if s = [] ∨ s = ['+'] ∨ s = ['-'] then .error .invalidFormat
  else parseDigits (splitSign s).2 (splitSign s).1

/-- A valid decimal string per the claim: an optional leading `+`/`-` sign
followed by one or more digits. -/
def ValidDec (s : List Char) : Prop :=
  (splitSign s).2 ≠ [] ∧ (splitSign s).2.all isDigitC = true

instance (s : List Char) : Decidable (ValidDec s) := by
  unfold ValidDec; infer_instance

/-- The canonical form named by the claim: the explicit `+` and leading
zeros are stripped, and `-0` normalizes to `0`. -/
def canonicalForm (s : List Char) : List Char :=
  if (splitSign s).2.dropWhile (fun c => c = '0') = [] then ['0']
  else (if (splitSign s).1 then [] else ['-']) ++
    (splitSign s).2.dropWhile (fun c => c = '0')

theorem char_toNat_bounds (c : Char) (h : isDigitC c = true) :
    48 ≤ c.toNat ∧ c.toNat ≤ 57 := by
  unfold isDigitC at h
  simp only [Bool.and_eq_true, decide_eq_true_eq] at h
  have h1 := Char.le_def.mp h.1
  have h2 := Char.le_def.mp h.2
  exact ⟨h1, h2⟩

theorem charDigit_lt (c : Char) (h : isDigitC c = true) : charDigit c < 10 := by
  obtain ⟨h1, h2⟩ := char_toNat_bounds c h
  unfold charDigit
  omega

theorem char_eq_of_toNat (c d : Char) (h : c.toNat = d.toNat) : c = d := by
  have h1 := Char.ofNat_toNat c
  have h2 := Char.ofNat_toNat d
  rw [← h1, ← h2, h]

theorem digitChar_charDigit (c : Char) (h : isDigitC c = true) :
    digitChar (charDigit c) = c := by
  obtain ⟨h1, _⟩ := char_toNat_bounds c h
  unfold digitChar charDigit
  have heq : 48 + (c.toNat - 48) = c.toNat := by omega
  rw [heq, Char.ofNat_toNat]

theorem charDigit_zero_iff (c : Char) (h : isDigitC c = true) :
    charDigit c = 0 ↔ c = '0' := by
  obtain ⟨h1, _⟩ := char_toNat_bounds c h
  unfold charDigit
  constructor
  · intro h0
    apply char_eq_of_toNat
    show c.toNat = ('0' : Char).toNat
    have h48 : ('0' : Char).toNat = 48 := rfl
    omega
  · intro h0
    rw [h0]
    rfl

/-- `dropWhile` of the zero digit commutes with the digit decoding. -/
theorem dropWhile_map_digits (t : List Char) (ht : t.all isDigitC = true) :
    (t.map charDigit).dropWhile (fun d => d = 0) =
      (t.dropWhile (fun c => c = '0')).map charDigit := by
  induction t with
  | nil => rfl
  | cons c rest ih =>
    have hc : isDigitC c = true := by
      simp only [List.all_cons, Bool.and_eq_true] at ht
      exact ht.1
    have hrest : rest.all isDigitC = true := by
      simp only [List.all_cons, Bool.and_eq_true] at ht
      exact ht.2
    simp only [List.map_cons, List.dropWhile_cons]
    by_cases h0 : c = '0'
    · have hz : charDigit c = 0 := (charDigit_zero_iff c hc).mpr h0
      rw [if_pos (by simp [hz]), if_pos (by simp [h0])]
      exact ih hrest
    · have hz : charDigit c ≠ 0 := fun hzz =>
        h0 ((charDigit_zero_iff c hc).mp hzz)
      rw [if_neg (by simpa using hz), if_neg (by simpa using h0)]
      rfl

theorem map_digitChar_charDigit (l : List Char)
    (h : ∀ c ∈ l, isDigitC c = true) :
    (l.map charDigit).map digitChar = l := by
  induction l with
  | nil => rfl
  | cons c t ih =>
    simp only [List.map_cons]
    rw [digitChar_charDigit c (h c (List.mem_cons_self ..)),
      ih (fun z hz => h z (List.mem_cons_of_mem _ hz))]

/-- `trim` applied to a reversed list, expressed over the original. -/
theorem trimList_reverse (m : List Nat) :
    trimList m.reverse = match m.dropWhile (fun d => d = 0) with
      | [] => if m.reverse = [] then [] else [0]
      | d :: r => (d :: r).reverse := by
  unfold trimList
  rw [List.reverse_reverse]

/-- Round trip of the string conversion: parsing a valid decimal string and
printing the result yields the canonical form. -/
theorem parseO_toStringO (s : List Char) (hv : ValidDec s) :
    ∃ x, parseO s = .ok x ∧ WF x ∧ toStringO x = canonicalForm s := by
  obtain ⟨hne, hall⟩ := hv
  have hnot : ¬ (s = [] ∨ s = ['+'] ∨ s = ['-']) := by
    rintro (rfl | rfl | rfl)
    · exact hne rfl
    · exact hne (by simp [splitSign])
    · exact hne (by simp [splitSign])
  have hstep : parseO s = parseDigits (splitSign s).2 (splitSign s).1 := by
    unfold parseO
    rw [if_neg hnot]
  have hdig : parseDigits (splitSign s).2 (splitSign s).1 =
      .ok ⟨trimList (((splitSign s).2.map charDigit).reverse),
        if trimList (((splitSign s).2.map charDigit).reverse) = [0] then true
          else (splitSign s).1⟩ := by
    unfold parseDigits
    rw [if_pos hall]
  have hmdig : ∀ d ∈ (splitSign s).2.map charDigit, d < 10 := by
    intro d hd
    obtain ⟨c, hc, rfl⟩ := List.mem_map.mp hd
    exact charDigit_lt c (by
      rw [List.all_eq_true] at hall
      exact hall c hc)
  have hmne : ((splitSign s).2.map charDigit).reverse ≠ [] := by
    simp only [ne_eq, List.reverse_eq_nil_iff, List.map_eq_nil_iff]
    exact hne
  have hkey := trimList_reverse ((splitSign s).2.map charDigit)
  rw [dropWhile_map_digits _ hall] at hkey
  rcases hdrop : (splitSign s).2.dropWhile (fun c => c = '0') with _ | ⟨c0, r⟩
  · -- the digits are all zeros: canonical zero on both sides
    rw [hdrop] at hkey
    simp only [List.map_nil] at hkey
    rw [if_neg hmne] at hkey
    refine ⟨⟨[0], true⟩, ?_, WF_zeroO, ?_⟩
    · rw [hstep, hdig, hkey]
      simp
    · unfold toStringO canonicalForm
      rw [if_pos (Or.inr rfl), if_pos hdrop]
  · -- a nonzero leading digit survives
    rw [hdrop] at hkey
    simp only [List.map_cons] at hkey
    rw [List.all_eq_true] at hall
    have hsub : c0 :: r <:+ (splitSign s).2 :=
      hdrop ▸ List.dropWhile_suffix _
    have hc0 : isDigitC c0 = true := hall c0 (hsub.subset (List.mem_cons_self ..))
    have hc0r : ∀ c ∈ c0 :: r, isDigitC c = true := fun c hc =>
      hall c (hsub.subset hc)
    have hc0ne : c0 ≠ '0' := by
      have := dropWhile_head_false _ _ _ _ hdrop
      simpa using this
    have hd0ne : charDigit c0 ≠ 0 := fun hz =>
      hc0ne ((charDigit_zero_iff c0 hc0).mp hz)
    have htrim0 : trimList (((splitSign s).2.map charDigit).reverse) ≠
        [0] := by
      rw [hkey]
      intro hc
      have h2 : charDigit c0 :: r.map charDigit = [0] := by
        have h3 := congrArg List.reverse hc
        rwa [List.reverse_reverse] at h3
      injection h2 with h4 _
      exact hd0ne h4
    have htrimne : trimList (((splitSign s).2.map charDigit).reverse) ≠
        [] := by
      rw [hkey]
      simp
    refine ⟨⟨trimList (((splitSign s).2.map charDigit).reverse),
      (splitSign s).1⟩, ?_, ?_, ?_⟩
    · rw [hstep, hdig, if_neg htrim0]
    · refine WF_mk _ _ htrimne ?_ ?_ ?_
      · exact trimList_digits _ (fun d hd =>
          hmdig d (List.mem_reverse.mp hd))
      · rw [hkey]
        intro hlast
        rw [List.getLast?_reverse] at hlast
        simp only [List.head?_cons] at hlast
        exact absurd (Option.some.inj hlast) hd0ne
      · intro h0
        exact absurd h0 htrim0
    · unfold toStringO canonicalForm
      have hcfne : ¬ ((splitSign s).2.dropWhile (fun c => c = '0') = []) := by
        rw [hdrop]
        simp
      rw [if_neg (by
        rintro (hc | hc)
        · exact htrimne hc
        · exact htrim0 hc), if_neg hcfne]
      have hrev : (trimList (((splitSign s).2.map charDigit).reverse)).reverse
          = charDigit c0 :: r.map charDigit := by
        rw [hkey, List.reverse_reverse]
      have hmap : (charDigit c0 :: r.map charDigit).map digitChar =
          c0 :: r := by
        have h5 : ((c0 :: r).map charDigit).map digitChar = c0 :: r :=
          map_digitChar_charDigit (c0 :: r) hc0r
        simpa using h5
      show (if (splitSign s).1 = true then ([] : List Char) else ['-']) ++
          ((trimList (((splitSign s).2.map charDigit).reverse)).reverse.map
            digitChar) =
        (if (splitSign s).1 = true then ([] : List Char) else ['-']) ++
          (splitSign s).2.dropWhile (fun c => c = '0')
      rw [hrev, hmap, hdrop]

/-! ## Native integer conversion -/

/-- The accumulation loop of `toLongLong`: most-significant digit first,
`result = result * 10 + digit`, on the 64-bit two's-complement register
(modelled as arithmetic modulo `2^64`; the C++ `long long` wraps there). -/
def llAccum (x : OmniInt) : Nat :=
  x.val.reverse.foldl (fun acc d => (acc * 10 + d) % 2 ^ 64) 0

/-- Interpret a 64-bit wraparound register as a signed two's-complement
value. -/
def toSigned (r : Nat) : Int :=
  if r < 2 ^ 63 then (r : Int) else (r : Int) - 2 ^ 64

/-- `OmniInt::toLongLong`: range check against pre-built `OmniInt`s of the
native maximum/minimum via `compare`, then the wraparound accumulation, then
a wraparound negation when the sign is negative. -/
def toLongLong (x : OmniInt) : Except OErr Int :=
  if x.pos then
    if gtO x (fromInt (2 ^ 63 - 1)) then .error .rangeOverflow
    else .ok (toSigned (llAccum x))
  else
    if ltO x (fromInt (-(2 ^ 63))) then .error .rangeOverflow
    else .ok (toSigned ((2 ^ 64 - llAccum x) % 2 ^ 64))

theorem llfold : ∀ (l : List Nat) (acc : Nat),
    (l.foldl (fun acc d => (acc * 10 + d) % 2 ^ 64) acc) % 2 ^ 64 =
      (acc * 10 ^ l.length + msbVal l) % 2 ^ 64
  | [], acc => by simp [msbVal]
  | d :: t, acc => by
      simp only [List.foldl_cons, List.length_cons]
      rw [llfold t ((acc * 10 + d) % 2 ^ 64)]
      conv_rhs => rw [msbVal_cons]
      have h1 : ((acc * 10 + d) % 2 ^ 64) * 10 ^ t.length + msbVal t ≡
          (acc * 10 + d) * 10 ^ t.length + msbVal t [MOD 2 ^ 64] :=
        ((Nat.mod_modEq _ _).mul_right _).add_right _
      rw [Nat.ModEq] at h1
      rw [h1]
      congr 1
      ring

theorem llfold_lt : ∀ (l : List Nat) (acc : Nat), l ≠ [] →
    l.foldl (fun acc d => (acc * 10 + d) % 2 ^ 64) acc < 2 ^ 64
  | [], _, h => absurd rfl h
  | d :: t, acc, _ => by
      simp only [List.foldl_cons]
      cases ht : t with
      | nil =>
        simp only [List.foldl_nil]
        exact Nat.mod_lt _ (by positivity)
      | cons e s =>
        rw [← ht]
        exact llfold_lt t _ (by rw [ht]; simp)

/-- The accumulated register holds the magnitude modulo `2^64`. -/
theorem llAccum_spec (x : OmniInt) (h : x.val ≠ []) :
    llAccum x = lv x.val % 2 ^ 64 ∧ llAccum x < 2 ^ 64 := by
  have hne : x.val.reverse ≠ [] := by
    simpa using h
  have hlt := llfold_lt x.val.reverse 0 hne
  have hval := llfold x.val.reverse 0
  rw [Nat.mod_eq_of_lt hlt] at hval
  have hmsb : msbVal x.val.reverse = lv x.val := by
    have h2 := lv_reverse x.val.reverse
    rw [List.reverse_reverse] at h2
    exact h2.symm
  rw [hmsb] at hval
  simp only [Nat.zero_mul, Nat.zero_add] at hval
  exact ⟨by unfold llAccum; rw [hval], by unfold llAccum; exact hlt⟩

/-- Range-checked conversion: `RangeOverflow` exactly outside
`[-2^63, 2^63-1]`, the exact value inside. -/
theorem toLongLong_spec (x : OmniInt) (hx : WF x) :
    ((toLongLong x = .error .rangeOverflow) ↔
      (value x < -(2 ^ 63) ∨ 2 ^ 63 - 1 < value x)) ∧
    (-(2 ^ 63) ≤ value x → value x ≤ 2 ^ 63 - 1 →
      toLongLong x = .ok (value x)) := by
  have hmaxv : value (fromInt (2 ^ 63 - 1)) = 2 ^ 63 - 1 := value_fromInt _
  have hminv : value (fromInt (-(2 ^ 63))) = -(2 ^ 63) := value_fromInt _
  obtain ⟨hacc, hacclt⟩ := llAccum_spec x hx.1
  cases hp : x.pos with
  | true =>
    have hvx : value x = (lv x.val : Int) := value_of_pos hp
    have hgt : gtO x (fromInt (2 ^ 63 - 1)) ↔ 2 ^ 63 - 1 < value x := by
      rw [gtO_iff hx (WF_fromInt _), hmaxv]
    constructor
    · constructor
      · intro herr
        unfold toLongLong at herr
        rw [hp] at herr
        simp only [if_true] at herr
        by_cases hg : gtO x (fromInt (2 ^ 63 - 1))
        · right; exact hgt.mp hg
        · rw [if_neg hg] at herr
          exact absurd herr (by simp)
      · intro hrange
        unfold toLongLong
        rw [hp]
        simp only [if_true]
        rcases hrange with hlo | hhi
        · exfalso; rw [hvx] at hlo; omega
        · rw [if_pos (hgt.mpr hhi)]
    · intro _ hhi
      unfold toLongLong
      rw [hp]
      simp only [if_true]
      rw [if_neg (fun hg => absurd (hgt.mp hg) (by omega))]
      have hlvsmall : lv x.val < 2 ^ 63 := by
        rw [hvx] at hhi
        omega
      rw [hacc, Nat.mod_eq_of_lt (by omega)]
      unfold toSigned
      rw [if_pos hlvsmall, hvx]
  | false =>
    have hvx : value x = -(lv x.val : Int) := by
      unfold value; rw [hp]; simp
    have hlv1 : 1 ≤ lv x.val := by
      rcases Nat.eq_zero_or_pos (lv x.val) with h0 | h0
      · exfalso
        have := hx.2.2.2 (hx.lv_eq_zero_iff.mp h0)
        rw [hp] at this
        exact Bool.false_ne_true this
      · exact h0
    have hlt : ltO x (fromInt (-(2 ^ 63))) ↔ value x < -(2 ^ 63) := by
      rw [ltO_iff hx (WF_fromInt _), hminv]
    constructor
    · constructor
      · intro herr
        unfold toLongLong at herr
        rw [hp] at herr
        simp only [Bool.false_eq_true, if_false] at herr
        by_cases hg : ltO x (fromInt (-(2 ^ 63)))
        · left; exact hlt.mp hg
        · rw [if_neg hg] at herr
          exact absurd herr (by simp)
      · intro hrange
        unfold toLongLong
        rw [hp]
        simp only [Bool.false_eq_true, if_false]
        rcases hrange with hlo | hhi
        · rw [if_pos (hlt.mpr hlo)]
        · exfalso; rw [hvx] at hhi; omega
    · intro hlo _
      unfold toLongLong
      rw [hp]
      simp only [Bool.false_eq_true, if_false]
      rw [if_neg (fun hg => absurd (hlt.mp hg) (by omega))]
      have hlvle : lv x.val ≤ 2 ^ 63 := by
        rw [hvx] at hlo
        omega
      have hinner : lv x.val % 2 ^ 64 = lv x.val :=
        Nat.mod_eq_of_lt (by omega)
      have hsub : (2 ^ 64 - lv x.val) % 2 ^ 64 = 2 ^ 64 - lv x.val :=
        Nat.mod_eq_of_lt (by omega)
      rw [hacc, hinner, hsub]
      unfold toSigned
      rw [if_neg (by omega)]
      rw [hvx]
      have hcast : ((2 ^ 64 - lv x.val : Nat) : Int) =
          ((2 ^ 64 : Nat) : Int) - (lv x.val : Int) :=
        Nat.cast_sub (by omega : lv x.val ≤ 2 ^ 64)
      rw [hcast]
      ring

/-- `parseO` only returns well-formed values. -/
theorem parseO_WF (s : List Char) (x : OmniInt) (h : parseO s = .ok x) :
    WF x := by
  unfold parseO at h
  by_cases hc : s = [] ∨ s = ['+'] ∨ s = ['-']
  · rw [if_pos hc] at h
    exact absurd h (by simp)
  · rw [if_neg hc] at h
    unfold parseDigits at h
    by_cases hall : (splitSign s).2.all isDigitC
    · rw [if_pos hall] at h
      injection h with h
      subst h
      have htne : (splitSign s).2 ≠ [] := by
        rcases s with _ | ⟨c, t⟩
        · exact absurd (Or.inl rfl) hc
        · simp only [splitSign]
          by_cases h1 : c = '-'
          · rw [if_pos h1]
            intro ht
            subst h1 ht
            exact hc (Or.inr (Or.inr rfl))
          · rw [if_neg h1]
            by_cases h2 : c = '+'
            · rw [if_pos h2]
              intro ht
              subst h2 ht
              exact hc (Or.inr (Or.inl rfl))
            · rw [if_neg h2]
              simp
      have hmne : ((splitSign s).2.map charDigit).reverse ≠ [] := by
        simp only [ne_eq, List.reverse_eq_nil_iff, List.map_eq_nil_iff]
        exact htne
      refine WF_mk _ _ (trimList_ne_nil _ hmne) ?_ (trimList_getLast _) ?_
      · refine trimList_digits _ ?_
        intro d hd
        obtain ⟨c, hcm, rfl⟩ := List.mem_map.mp (List.mem_reverse.mp hd)
        rw [List.all_eq_true] at hall
        exact charDigit_lt c (hall c hcm)
      · intro h0
        rw [if_pos h0]
    · rw [if_neg hall] at h
      exact absurd h (by simp)

/-- Any value the fueled addition/subtraction pair returns is the exact sum
or difference (for well-formed operands), at every fuel. -/
theorem addsubFuel_value (n : Nat) :
    (∀ a b r, WF a → WF b → addFuel n a b = some r →
      value r = value a + value b) ∧
    (∀ a b r, WF a → WF b → subFuel n a b = some r →
      value r = value a - value b) := by
  induction n with
  | zero =>
    constructor
    · intro a b r _ _ h
      simp [addFuel] at h
    · intro a b r _ _ h
      simp [subFuel] at h
  | succ m ih =>
    constructor
    · intro a b r ha hb h
      unfold addFuel at h
      by_cases hs : a.pos = b.pos
      · rw [if_pos hs] at h
        injection h with h
        rw [← h]
        exact value_addMag a b hs
      · rw [if_neg hs] at h
        have := ih.2 a (negO b) r ha (WF_negO b hb) h
        rw [this, value_negO]
        ring
    · intro a b r ha hb h
      unfold subFuel at h
      by_cases hs : a.pos = b.pos
      · rw [if_neg (by simp [hs])] at h
        by_cases hlt : ltO (absO a) (absO b)
        · rw [if_pos hlt] at h
          rcases hmap : subFuel m b a with _ | r0
          · rw [hmap] at h; simp at h
          · rw [hmap] at h
            simp only [Option.map_some'] at h
            injection h with h
            have := ih.2 b a r0 hb ha hmap
            rw [← h, value_negO, this]
            ring
        · rw [if_neg hlt] at h
          have hge : lv b.val ≤ lv a.val := by
            by_contra hc
            exact hlt (by
              rw [ltO_iff (WF_absO a ha) (WF_absO b hb), value_absO,
                value_absO]
              omega)
          obtain ⟨r2, heq2, _, hv2⟩ := subFuel_digit m a b ha hb hs hge
          unfold subFuel at heq2
          rw [if_neg (by simp [hs]), if_neg hlt] at heq2
          rw [heq2] at h
          injection h with h
          rw [← h]
          exact hv2
      · rw [if_pos (by simp [hs])] at h
        have := ih.1 a (negO b) r ha (WF_negO b hb) h
        rw [this, value_negO]
        ring

theorem addO_value (a b r : OmniInt) (ha : WF a) (hb : WF b)
    (h : addO a b = some r) : value r = value a + value b :=
  (addsubFuel_value 8).1 a b r ha hb h

theorem subO_value (a b r : OmniInt) (ha : WF a) (hb : WF b)
    (h : subO a b = some r) : value r = value a - value b :=
  (addsubFuel_value 8).2 a b r ha hb h

theorem subO_WF (a b r : OmniInt) (ha : WF a) (hb : WF b)
    (h : subO a b = some r) : WF r :=
  (addsubFuel_WF 8).2 a b r ha hb h

/-! ## The claims -/

/-- C1: for every BigInt `a` and every BigInt `b` with `b` nonzero,
division and modulo satisfy the truncating-division contract:
`(a / b) * b + (a % b) = a`, `|a % b| < |b|`, the quotient's sign is the
XOR of the input signs (canonicalized to `Positive` when the quotient is
zero), and the remainder's sign equals the dividend's sign (canonicalized to
`Positive` when the remainder is zero). -/
theorem claim_C1_division_contract (a b : OmniInt) (ha : WF a) (hb : WF b)
    (hbz : value b ≠ 0) :
    ∃ q r, divRem a b = .ok (q, r) ∧ divO a b = .ok q ∧ modO a b = .ok r ∧
      value q * value b + value r = value a ∧
      (value r).natAbs < (value b).natAbs ∧
      q.pos = (if q.val = [0] then true else a.pos == b.pos) ∧
      r.pos = (if r.val = [0] then true else a.pos) ∧ WF q ∧ WF r := by
  have hbz' : b.val ≠ [0] := fun hc => hbz ((value_eq_zero_iff hb).mpr hc)
  obtain ⟨q, r, h1, h2, h3, h4, h5, h6, h7⟩ := divRem_spec a b ha hb hbz'
  refine ⟨q, r, h1, ?_, ?_, h4, h5, h6, h7, h2, h3⟩
  · unfold divO
    rw [h1]
    rfl
  · unfold modO
    rw [h1]
    rfl

/-- C1 witness: the contract at `a = -10`, `b = 3` (so `-10 % 3 = -1`). -/
theorem claim_C1_witness :
    WF ⟨[0, 1], false⟩ ∧ WF ⟨[3], true⟩ ∧
      value (⟨[3], true⟩ : OmniInt) ≠ 0 ∧
      (∃ q r, divRem ⟨[0, 1], false⟩ ⟨[3], true⟩ = .ok (q, r) ∧
        divO ⟨[0, 1], false⟩ ⟨[3], true⟩ = .ok q ∧
        modO ⟨[0, 1], false⟩ ⟨[3], true⟩ = .ok r ∧
        value q * value ⟨[3], true⟩ + value r = value ⟨[0, 1], false⟩ ∧
        (value r).natAbs < (value (⟨[3], true⟩ : OmniInt)).natAbs ∧
        q.pos = (if q.val = [0] then true
          else (⟨[0, 1], false⟩ : OmniInt).pos == (⟨[3], true⟩ : OmniInt).pos) ∧
        r.pos = (if r.val = [0] then true
          else (⟨[0, 1], false⟩ : OmniInt).pos) ∧ WF q ∧ WF r) :=
  ⟨by decide, by decide, by decide,
    claim_C1_division_contract ⟨[0, 1], false⟩ ⟨[3], true⟩ (by decide)
      (by decide) (by decide)⟩

/-- C2 (gcd is modelled from the spec, its implementation not being among
the source files): `gcd` computes the greatest common divisor by the
Euclidean algorithm on absolute values; the result is non-negative for all
inputs regardless of signs, and `gcd(0,0) = 0`. -/
theorem claim_C2_gcd (a b : OmniInt) :
    0 ≤ value (gcdO a b) ∧
    value (gcdO a b) = Int.gcd (value a) (value b) ∧
    WF (gcdO a b) ∧ gcdO zeroO zeroO = zeroO := by
  obtain ⟨h1, h2, h3⟩ := gcdO_spec a b
  exact ⟨h2, h3, h1, gcdO_zero_zero⟩

/-- C3: `sqrt` returns `r` with `r^2 ≤ n < (r+1)^2` for every `n ≥ 0`
(hence `0` for input `0`), and fails with `DomainError` for every negative
input. -/
theorem claim_C3_isqrt (n : OmniInt) (hn : WF n) :
    (0 ≤ value n → ∃ r, sqrtO n = .ok r ∧ WF r ∧
      value r * value r ≤ value n ∧
      value n < (value r + 1) * (value r + 1)) ∧
    (value n < 0 → sqrtO n = .error .domainError) := by
  constructor
  · intro hpos
    obtain ⟨r, h1, h2, h3, h4⟩ := sqrtO_spec n hn hpos
    have hnp : n.pos = true := pos_of_value_nonneg hn hpos
    have hvn : value n = (lv n.val : Int) := value_of_pos hnp
    have hvr : value r = (lv r.val : Int) := value_of_pos h3
    refine ⟨r, h1, h2, ?_, ?_⟩
    · rw [hvr, hvn, h4]
      exact_mod_cast Nat.sqrt_le (lv n.val)
    · rw [hvr, hvn, h4]
      have := Nat.lt_succ_sqrt (lv n.val)
      exact_mod_cast this
  · exact sqrtO_neg n hn

/-- C3 witness: the bounds at `n = 10` and the domain error at `n = -1`. -/
theorem claim_C3_witness :
    WF ⟨[0, 1], true⟩ ∧ (0 : Int) ≤ value ⟨[0, 1], true⟩ ∧
      (∃ r, sqrtO ⟨[0, 1], true⟩ = .ok r ∧ WF r ∧
        value r * value r ≤ value ⟨[0, 1], true⟩ ∧
        value ⟨[0, 1], true⟩ < (value r + 1) * (value r + 1)) ∧
      WF ⟨[1], false⟩ ∧ value (⟨[1], false⟩ : OmniInt) < 0 ∧
      sqrtO ⟨[1], false⟩ = .error .domainError :=
  ⟨by decide, by decide,
    (claim_C3_isqrt ⟨[0, 1], true⟩ (by decide)).1 (by decide),
    by decide, by decide,
    (claim_C3_isqrt ⟨[1], false⟩ (by decide)).2 (by decide)⟩

/-- C4: every public operation produces or mutates only well-formed
representations: the magnitude is never empty, carries no most-significant
zero digit except the canonical zero `[0]`, and zero always has sign
`Positive`. -/
theorem claim_C4_invariants :
    (∀ n : Int, WF (fromInt n)) ∧
    (∀ (s : List Char) (x : OmniInt), parseO s = .ok x → WF x) ∧
    (∀ a, WF a → WF (negO a)) ∧
    (∀ a, WF a → WF (absO a)) ∧
    (∀ f a b r, WF a → WF b → addFuel f a b = some r → WF r) ∧
    (∀ f a b r, WF a → WF b → subFuel f a b = some r → WF r) ∧
    (∀ a b, WF a → WF b → WF (mulO a b)) ∧
    (∀ a b q r, WF a → WF b → divRem a b = .ok (q, r) → WF q ∧ WF r) ∧
    (∀ n r, WF n → sqrtO n = .ok r → WF r) := by
  refine ⟨WF_fromInt, parseO_WF, WF_negO, WF_absO, ?_, ?_, WF_mulO, ?_, ?_⟩
  · intro f a b r ha hb h
    exact (addsubFuel_WF f).1 a b r ha hb h
  · intro f a b r ha hb h
    exact (addsubFuel_WF f).2 a b r ha hb h
  · intro a b q r ha hb h
    by_cases hbz : b.val = [0]
    · exfalso
      unfold divRem at h
      rw [if_pos hbz] at h
      exact absurd h (by simp)
    · obtain ⟨q2, r2, h1, h2, h3, _⟩ := divRem_spec a b ha hb hbz
      rw [h1] at h
      injection h with h
      injection h with hq hr
      rw [← hq, ← hr]
      exact ⟨h2, h3⟩
  · intro n r hn h
    by_cases hneg : value n < 0
    · rw [sqrtO_neg n hn hneg] at h
      exact absurd h (by simp)
    · obtain ⟨r2, h1, h2, _, _⟩ := sqrtO_spec n hn (by omega)
      rw [h1] at h
      injection h with h
      rw [← h]
      exact h2

/-- C4 witness: the invariants hold on results of concrete operations. -/
theorem claim_C4_witness :
    WF ⟨[9, 9], true⟩ ∧ WF ⟨[1], false⟩ ∧
      WF (mulO ⟨[9, 9], true⟩ ⟨[1], false⟩) ∧
      WF (negO ⟨[9, 9], true⟩) :=
  ⟨by decide, by decide,
    claim_C4_invariants.2.2.2.2.2.2.1 ⟨[9, 9], true⟩ ⟨[1], false⟩
      (by decide) (by decide),
    claim_C4_invariants.2.2.1 ⟨[9, 9], true⟩ (by decide)⟩

/-- C5: the implementation's multiplication equals the deferred-carry
schoolbook reference: a buffer of length `len(a)+len(b)`, all pairwise
products accumulated at `i+j` without carry, one left-to-right carry pass;
the sign is the XOR of the input signs and a zero operand short-circuits to
canonical zero. -/
theorem claim_C5_mul_refinement (a b : OmniInt) (ha : WF a) (hb : WF b) :
    mulO a b = specMul a b ∧
    ((a.val = [0] ∨ b.val = [0]) → mulO a b = zeroO) ∧
    (a.val ≠ [0] → b.val ≠ [0] → (mulO a b).pos = (a.pos == b.pos)) := by
  refine ⟨mulO_eq_specMul a b ha hb, ?_, ?_⟩
  · intro hz
    unfold mulO
    rw [if_pos hz]
    rfl
  · intro haz hbz
    unfold mulO
    rw [if_neg (by
      rintro (h | h)
      · exact haz h
      · exact hbz h)]

/-- C5 witness: the refinement at `a = 46`, `b = -93`. -/
theorem claim_C5_witness :
    WF ⟨[6, 4], true⟩ ∧ WF ⟨[3, 9], false⟩ ∧
      (mulO ⟨[6, 4], true⟩ ⟨[3, 9], false⟩ =
          specMul ⟨[6, 4], true⟩ ⟨[3, 9], false⟩ ∧
        (((⟨[6, 4], true⟩ : OmniInt).val = [0] ∨
            (⟨[3, 9], false⟩ : OmniInt).val = [0]) →
          mulO ⟨[6, 4], true⟩ ⟨[3, 9], false⟩ = zeroO) ∧
        ((⟨[6, 4], true⟩ : OmniInt).val ≠ [0] →
          (⟨[3, 9], false⟩ : OmniInt).val ≠ [0] →
          (mulO ⟨[6, 4], true⟩ ⟨[3, 9], false⟩).pos =
            ((⟨[6, 4], true⟩ : OmniInt).pos ==
              (⟨[3, 9], false⟩ : OmniInt).pos))) :=
  ⟨by decide, by decide,
    claim_C5_mul_refinement ⟨[6, 4], true⟩ ⟨[3, 9], false⟩ (by decide)
      (by decide)⟩

/-- C6: division and modulo fail with `DivideByZero` exactly when the
divisor's magnitude is zero, the zero-divisor check runs before any
mutation, and on failure the in-place forms leave the receiver unchanged. -/
theorem claim_C6_divide_by_zero (a b : OmniInt) (ha : WF a) (hb : WF b) :
    ((divRem a b = .error .divideByZero) ↔ b.val = [0]) ∧
    (∀ e, divRem a b = .error e → e = .divideByZero) ∧
    (b.val = [0] →
      divO a b = .error .divideByZero ∧ modO a b = .error .divideByZero ∧
      divAssign a b = (a, some .divideByZero) ∧
      modAssign a b = (a, some .divideByZero)) := by
  have hzero : b.val = [0] → divRem a b = .error .divideByZero := by
    intro hz
    unfold divRem
    rw [if_pos hz]
  have hok : b.val ≠ [0] → ∃ p, divRem a b = .ok p := by
    intro hz
    obtain ⟨q, r, h1, _⟩ := divRem_spec a b ha hb hz
    exact ⟨(q, r), h1⟩
  refine ⟨⟨?_, hzero⟩, ?_, ?_⟩
  · intro herr
    by_cases hz : b.val = [0]
    · exact hz
    · obtain ⟨p, hp⟩ := hok hz
      rw [hp] at herr
      exact absurd herr (by simp)
  · intro e herr
    by_cases hz : b.val = [0]
    · rw [hzero hz] at herr
      injection herr with herr
      exact herr.symm
    · obtain ⟨p, hp⟩ := hok hz
      rw [hp] at herr
      exact absurd herr (by simp)
  · intro hz
    have hd := hzero hz
    have h1 : divO a b = .error .divideByZero := by
      unfold divO
      rw [hd]
      rfl
    have h2 : modO a b = .error .divideByZero := by
      unfold modO
      rw [hd]
      rfl
    refine ⟨h1, h2, ?_, ?_⟩
    · unfold divAssign
      rw [h1]
    · unfold modAssign
      rw [h2]

/-- C6 witness: dividing `7` by zero raises `DivideByZero` and leaves the
receiver untouched. -/
theorem claim_C6_witness :
    WF ⟨[7], true⟩ ∧ WF zeroO ∧
      ((divRem ⟨[7], true⟩ zeroO = .error .divideByZero) ↔
        zeroO.val = [0]) ∧
      (zeroO.val = [0] →
        divO ⟨[7], true⟩ zeroO = .error .divideByZero ∧
        modO ⟨[7], true⟩ zeroO = .error .divideByZero ∧
        divAssign ⟨[7], true⟩ zeroO = (⟨[7], true⟩, some .divideByZero) ∧
        modAssign ⟨[7], true⟩ zeroO = (⟨[7], true⟩, some .divideByZero)) :=
  ⟨by decide, by decide,
    (claim_C6_divide_by_zero ⟨[7], true⟩ zeroO (by decide) (by decide)).1,
    (claim_C6_divide_by_zero ⟨[7], true⟩ zeroO (by decide) (by decide)).2.2⟩

/-- C7 (the failing input of the claim): the claim `a + 0 == a` fails on
the code — for a negative receiver and zero operand the C++
`operator+=`/`operator-=` pair recurses forever (negating zero leaves it
positive, so the sign mismatch never resolves), modelled here by the fueled
pair returning `none` at every fuel on `a = -1`, `b = 0`. -/
theorem claim_C7_add_zero_diverges (fuel : Nat) :
    addFuel fuel ⟨[1], false⟩ zeroO = none ∧
    subFuel fuel ⟨[1], false⟩ zeroO = none :=
  addsubFuel_neg_zero_none fuel ⟨[1], false⟩ rfl

/-- The salvageable part of C7, not itself a claim: whenever the fueled
operations do return, they satisfy the claimed identities `a + b = b + a`
(as values), `a + 0 = a`, `a - a = 0`, `(a - b) + b = a`. -/
theorem addsub_identities_when_terminating (a b : OmniInt) (ha : WF a)
    (hb : WF b) :
    (∀ r1 r2, addO a b = some r1 → addO b a = some r2 →
      value r1 = value r2) ∧
    (a.pos = true → ∃ r, addO a zeroO = some r ∧ value r = value a) ∧
    (∃ r, subO a a = some r ∧ value r = 0) ∧
    (∀ r1, subO a b = some r1 → (b.val ≠ [0] ∨ a.pos = true) →
      ∃ r2, addO r1 b = some r2 ∧ value r2 = value a) := by
  refine ⟨?_, ?_, ?_, ?_⟩
  · intro r1 r2 h1 h2
    have hv1 := addO_value a b r1 ha hb h1
    have hv2 := addO_value b a r2 hb ha h2
    rw [hv1, hv2]
    ring
  · intro hap
    obtain ⟨r, h1, _, h3⟩ := addFuel_spec 8 a zeroO (by omega) ha WF_zeroO
      (Or.inr hap)
    exact ⟨r, h1, by rw [h3, value_zeroO]; ring⟩
  · obtain ⟨r, h1, _, h3⟩ := subFuel_spec 8 a a (by omega) ha ha
      (by
        by_cases hz : a.val = [0]
        · exact Or.inr (ha.2.2.2 hz)
        · exact Or.inl hz)
    exact ⟨r, h1, by rw [h3]; ring⟩
  · intro r1 h1 hterm
    have hw1 := subO_WF a b r1 ha hb h1
    have hv1 := subO_value a b r1 ha hb h1
    obtain ⟨r2, h2, _, hv2⟩ := addFuel_spec 8 r1 b (by omega) hw1 hb
      (by
        by_cases hz : b.val = [0]
        · right
          rcases hterm with hne | hap
          · exact absurd hz hne
          · apply pos_of_value_nonneg hw1
            have hb0 : value b = 0 := (value_eq_zero_iff hb).mpr hz
            have hva : (0 : Int) ≤ value a := by
              rw [value_of_pos hap]
              positivity
            omega
        · exact Or.inl hz)
    exact ⟨r2, h2, by rw [hv2, hv1]; ring⟩

/-- C8: parsing a valid decimal string (optional sign, one or more digits)
and converting back yields the canonical form — leading zeros and an
explicit `+` stripped, `-0` normalized to `0`. -/
theorem claim_C8_roundtrip (s : List Char) (hv : ValidDec s) :
    ∃ x, parseO s = .ok x ∧ toStringO x = canonicalForm s := by
  obtain ⟨x, h1, _, h3⟩ := parseO_toStringO s hv
  exact ⟨x, h1, h3⟩

/-- C8 witness: the round trip on `"-042"`. -/
theorem claim_C8_witness :
    ValidDec ['-', '0', '4', '2'] ∧
      ∃ x, parseO ['-', '0', '4', '2'] = .ok x ∧
        toStringO x = canonicalForm ['-', '0', '4', '2'] :=
  ⟨by decide, claim_C8_roundtrip ['-', '0', '4', '2'] (by decide)⟩

/-- C9: conversion to the native integer fails with `RangeOverflow` exactly
when the value lies outside `[-2^63, 2^63 - 1]` (the check going through
pre-built `OmniInt` representations of the bounds), and otherwise returns
exactly the value. -/
theorem claim_C9_toLongLong_range (x : OmniInt) (hx : WF x) :
    ((toLongLong x = .error .rangeOverflow) ↔
      (value x < -(2 ^ 63) ∨ 2 ^ 63 - 1 < value x)) ∧
    (-(2 ^ 63) ≤ value x → value x ≤ 2 ^ 63 - 1 →
      toLongLong x = .ok (value x)) :=
  toLongLong_spec x hx

/-- C9 witness: `-5` converts exactly. -/
theorem claim_C9_witness :
    WF ⟨[5], false⟩ ∧
      (-(2 ^ 63) : Int) ≤ value ⟨[5], false⟩ ∧
      value (⟨[5], false⟩ : OmniInt) ≤ 2 ^ 63 - 1 ∧
      toLongLong ⟨[5], false⟩ = .ok (value ⟨[5], false⟩) :=
  ⟨by decide, by decide, by decide,
    (claim_C9_toLongLong_range ⟨[5], false⟩ (by decide)).2 (by decide)
      (by decide)⟩

/-- C10: for every native integer in the 64-bit range — including the
minimum `-2^63`, whose magnitude exceeds the positive native range —
constructing a BigInt from it and converting back returns it exactly (the
most-significant-first accumulation modelled on the `2^64` wraparound
register). -/
theorem claim_C10_native_roundtrip (n : Int) (h1 : -(2 ^ 63) ≤ n)
    (h2 : n ≤ 2 ^ 63 - 1) : toLongLong (fromInt n) = .ok n := by
  have h := toLongLong_spec (fromInt n) (WF_fromInt n)
  rw [value_fromInt] at h
  exact h.2 h1 h2

/-- C10 witness: the round trip at the native minimum `-2^63` itself. -/
theorem claim_C10_witness :
    (-(2 ^ 63) : Int) ≤ -(2 ^ 63) ∧ (-(2 ^ 63) : Int) ≤ 2 ^ 63 - 1 ∧
      toLongLong (fromInt (-(2 ^ 63))) = .ok (-(2 ^ 63)) :=
  ⟨by decide, by decide,
    claim_C10_native_roundtrip (-(2 ^ 63)) (by decide) (by decide)⟩

end OmniSpec
